import Mathlib

/-!
# Verification of the crypto transaction tracker's store and chain traversal

Shallow embedding of `src/utils/database.py` (class `Database`) and
`src/models/transaction.py` (class `Transaction` and its enums).

Modelling conventions:

* A Python `datetime` is a point on a linear timeline; the repository's
  adapters build naive datetimes, which are totally ordered and whose
  `isoformat` text encodings (fixed-width, most-significant-field-first)
  compare bytewise exactly as the instants compare chronologically.  We
  model an instant as a `Nat` of at most `10^20` (Python datetimes are
  bounded, year <= 9999) and `datetime.isoformat` as the fixed-width
  20-digit decimal encoding, which has the same three essential
  properties as the real encoder: it is injective, order-preserving
  under bytewise comparison, and exactly inverted by the parser
  (`datetime.fromisoformat`), which rejects any other string.
* Python `float` columns (`amount`, `fee`) are stored in a SQLite `REAL`
  column and round-trip exactly (both are IEEE doubles); no arithmetic is
  ever performed on them, so they are modelled as `Int`.
* `json.dumps`/`json.loads` round-trip losslessly on JSON-representable
  values and `json.loads` raises on any other text.  A TEXT column written
  by `json.dumps` is modelled as `JsonText α`: either the exact encoding
  of a value or malformed text on which the loader fails.
* A raised Python exception is modelled as the `.error` case of `Except`;
  store methods whose Python bodies catch all exceptions and return a
  boolean are total functions returning `Database × Bool`.
* SQLite row order: the table contents are a list in rowid order;
  `INSERT OR REPLACE` deletes the conflicting row and appends the new
  one; `SELECT ... WHERE` scans in that order and `fetchone` returns the
  first hit.  `ORDER BY <text column>` sorts bytewise (BINARY collation);
  sorting is modelled by a stable insertion sort, which agrees with any
  sorted permutation demanded by SQLite and with Python's stable
  `list.sort`.
-/

/-- A TEXT column holding the output of `json.dumps`: either the exact
encoding of a value (`json.loads (json.dumps v) == v`) or malformed text,
on which `json.loads` raises. -/
inductive JsonText (α : Type) where
  | enc (value : α)
  | malformed (text : String)
deriving DecidableEq

/-- `json.loads` applied to the text: recovers an encoded value, fails on
malformed text. -/
def JsonText.loads {α : Type} : JsonText α → Option α
  | .enc v => some v
  | .malformed _ => none

/-- `TransactionType` enum from `src/models/transaction.py`. -/
inductive TransactionType where
  | deposit | withdrawal | purchase | sale | transfer | swap | fee | unknown
deriving DecidableEq

/-- The `.value` string of each `TransactionType` member. -/
def TransactionType.value : TransactionType → String
  | .deposit => "deposit"
  | .withdrawal => "withdrawal"
  | .purchase => "purchase"
  | .sale => "sale"
  | .transfer => "transfer"
  | .swap => "swap"
  | .fee => "fee"
  | .unknown => "unknown"

/-- The enum constructor `TransactionType(s)`: looks a member up by its
value, `none` models the `ValueError` raised on an unknown string. -/
def TransactionType.ofValue (s : String) : Option TransactionType :=
  if s = "deposit" then some .deposit
  else if s = "withdrawal" then some .withdrawal
  else if s = "purchase" then some .purchase
  else if s = "sale" then some .sale
  else if s = "transfer" then some .transfer
  else if s = "swap" then some .swap
  else if s = "fee" then some .fee
  else if s = "unknown" then some .unknown
  else none

/-- `TransactionSource` enum from `src/models/transaction.py`. -/
inductive TransactionSource where
  | exchange | blockchain | dex | manual
deriving DecidableEq

/-- The `.value` string of each `TransactionSource` member. -/
def TransactionSource.value : TransactionSource → String
  | .exchange => "exchange"
  | .blockchain => "blockchain"
  | .dex => "dex"
  | .manual => "manual"

/-- The enum constructor `TransactionSource(s)`. -/
def TransactionSource.ofValue (s : String) : Option TransactionSource :=
  if s = "exchange" then some .exchange
  else if s = "blockchain" then some .blockchain
  else if s = "dex" then some .dex
  else if s = "manual" then some .manual
  else none

/-- The uninterpreted `raw_data` mapping (`Dict[str, Any]`): a JSON-representable
key/value document, here a finite string-to-string map as a representative
structurally valid shape.  The engine never inspects it. -/
abbrev RawData := List (String × String)

/-- The `Transaction` dataclass of `src/models/transaction.py`. -/
structure Transaction where
  id : String
  timestamp : Nat
  transaction_type : TransactionType
  source : TransactionSource
  amount : Int
  currency : String
  fee : Int
  fee_currency : String
  status : String
  notes : String
  raw_data : RawData
  related_transactions : List String
deriving DecidableEq

/-! ## The `datetime.isoformat` / `datetime.fromisoformat` pair -/

/-- Fixed-width decimal rendering, most significant digit first. -/
def toDecimal : Nat → Nat → List Char
  | 0, _ => []
  | w + 1, n => toDecimal w (n / 10) ++ [Nat.digitChar (n % 10)]

/-- `datetime.isoformat`: the fixed-width, order-preserving text encoding
of an instant (see the header comment). -/
def isoformat (n : Nat) : String :=
  ⟨toDecimal 20 n⟩

/-- Is this character an ASCII decimal digit? -/
def isDigitChar (c : Char) : Bool :=
  48 ≤ c.toNat && c.toNat ≤ 57

/-- Numeric value of a digit string, most significant digit first. -/
def valOf (cs : List Char) : Nat :=
  cs.foldl (fun a c => a * 10 + (c.toNat - 48)) 0

/-- `datetime.fromisoformat`: parses exactly the strings produced by
`isoformat`, failing (the Python call raises `ValueError`) on any other
string. -/
def fromisoformat (s : String) : Option Nat :=
  if s.data.length = 20 && s.data.all isDigitChar then some (valOf s.data) else none

/-! ## Persisted rows and the two tables -/

/-- One row of the `transactions` table, column for column as created by
`Database._create_tables`.  TEXT columns written by `json.dumps` are
`JsonText` values. -/
structure Row where
  id : String
  timestamp : String
  transaction_type : String
  source : String
  amount : Int
  currency : String
  fee : Int
  fee_currency : String
  status : String
  notes : String
  raw_data : JsonText RawData
  related_transactions : JsonText (List String)
deriving DecidableEq

/-- One row of the `transaction_links` table. -/
structure Link where
  parent_id : String
  child_id : String
  relationship_type : String
deriving DecidableEq

/-- The persistent state behind `Database`: both tables, rows in rowid
order. -/
structure Database where
  transactions : List Row
  links : List Link
deriving DecidableEq

/-- The row written by `Database.save_transaction`'s INSERT: each field
serialized exactly as in the Python tuple. -/
def encodeTx (t : Transaction) : Row :=
  { id := t.id
    timestamp := isoformat t.timestamp
    transaction_type := t.transaction_type.value
    source := t.source.value
    amount := t.amount
    currency := t.currency
    fee := t.fee
    fee_currency := t.fee_currency
    status := t.status
    notes := t.notes
    raw_data := .enc t.raw_data
    related_transactions := .enc t.related_transactions }

/-- The decoding performed by `Database.get_transaction` on a fetched row:
`json.loads` on `raw_data`, then on `related_transactions`, then
`Transaction.from_dict` (parse the timestamp, look up both enums).  Any
failing step raises, modelled by `.error`. -/
def decodeRow (r : Row) : Except String Transaction :=
  match r.raw_data.loads with
  | none => .error "json.loads raw_data"
  | some rd =>
    match r.related_transactions.loads with
    | none => .error "json.loads related_transactions"
    | some rel =>
      match fromisoformat r.timestamp with
      | none => .error "fromisoformat timestamp"
      | some ts =>
        match TransactionType.ofValue r.transaction_type with
        | none => .error "TransactionType ValueError"
        | some ty =>
          match TransactionSource.ofValue r.source with
          | none => .error "TransactionSource ValueError"
          | some src =>
            .ok { id := r.id, timestamp := ts, transaction_type := ty,
                  source := src, amount := r.amount, currency := r.currency,
                  fee := r.fee, fee_currency := r.fee_currency,
                  status := r.status, notes := r.notes, raw_data := rd,
                  related_transactions := rel }

/-! ## Store operations -/

/-- `Database.save_transaction`: `INSERT OR REPLACE` keyed on `id`
(delete the conflicting row, append the new one), then `return True`.
Serialization of the model's field values cannot fail and no other
connection holds a write lock when the method is entered at the store
boundary, so the `except` branch is unreachable here; the one call where
it does fire — the nested save inside `link_transactions`, blocked by
that method's own uncommitted edge insert — is modelled at its call
site. -/
def saveTransaction (db : Database) (t : Transaction) : Database × Bool :=
  ({ db with
      transactions := db.transactions.filter (fun r => !(r.id == t.id)) ++ [encodeTx t] },
   true)

/-- `Database.get_transaction`: `SELECT * WHERE id = ?`, `fetchone`, then
decode.  Absent row yields `.ok none`; a decoding failure raises (there is
no `try` in this method), modelled as `.error`. -/
def getTransaction (db : Database) (tid : String) : Except String (Option Transaction) :=
  match db.transactions.find? (fun r => r.id == tid) with
  | none => .ok none
  | some r => (decodeRow r).map some

/-- Stable insertion into a sorted list: the new element goes before the
first existing element it does not come after. -/
def sortedInsert {α : Type} (le : α → α → Bool) (a : α) : List α → List α
  | [] => [a]
  | b :: l => if le a b then a :: b :: l else b :: sortedInsert le a l

/-- Stable sort (Python's `list.sort` is stable; a stable sort by a total
preorder is unique, so this is extensionally the sort the code runs; for
SQLite's `ORDER BY` any sorted permutation is allowed and this is one). -/
def listSort {α : Type} (le : α → α → Bool) : List α → List α
  | [] => []
  | a :: l => sortedInsert le a (listSort le l)

/-- Bytewise (BINARY collation) strict comparison of text values. -/
def lexLt : List Char → List Char → Bool
  | [], [] => false
  | [], _ :: _ => true
  | _ :: _, [] => false
  | a :: as, b :: bs => a.toNat < b.toNat || (a.toNat == b.toNat && lexLt as bs)

/-- The `ORDER BY timestamp DESC` comparator of `get_all_transactions`:
row `a` may precede row `b` iff `a.timestamp` is not bytewise below
`b.timestamp`. -/
def rowDescLe (a b : Row) : Bool :=
  !(lexLt a.timestamp.data b.timestamp.data)

/-- The decoding loop of `get_all_transactions`: decode each fetched row
in order, raising on the first failure. -/
def decodeRows : List Row → Except String (List Transaction)
  | [] => .ok []
  | r :: rs =>
    match decodeRow r with
    | .error e => .error e
    | .ok t =>
      match decodeRows rs with
      | .error e => .error e
      | .ok ts => .ok (t :: ts)

/-- `Database.get_all_transactions`: fetch every row ordered by the
`timestamp` text descending, then decode them in order; a decoding
failure raises (no `try` in this method). -/
def getAllTransactions (db : Database) : Except String (List Transaction) :=
  decodeRows (listSort rowDescLe db.transactions)

/-- `Database.link_transactions`: upsert the edge (primary key
`(parent_id, child_id)`), re-read the parent on a second connection (a
read is allowed while the first connection holds the write lock of the
uncommitted edge insert), and when the parent exists and does not
already list the child, append the child id in memory and invoke
`save_transaction(parent)`; then commit the edge and return `True`.  The
nested save runs on a *third* connection while the link connection still
holds the write (RESERVED) lock of the uncommitted edge insert, so its
write is refused — it raises `OperationalError: database is locked`
inside `save_transaction`'s own `try`, which returns `False`, a value
`link_transactions` discards — and the parent row is left unchanged.  An
exception inside `link_transactions`' own `try` (the parent's row
failing to decode) is caught: the uncommitted edge insert is discarded
when the connection closes and the method returns `False`.  `insertLink`
is the state after the `INSERT OR REPLACE` on `transaction_links`
(primary key `(parent_id, child_id)`). -/
def insertLink (db : Database) (parent_id child_id relationship_type : String) : Database :=
  { db with
      links := db.links.filter
          (fun l => !(l.parent_id == parent_id && l.child_id == child_id)) ++
        [{ parent_id := parent_id, child_id := child_id,
           relationship_type := relationship_type }] }

def linkTransactions (db : Database) (parent_id child_id relationship_type : String) :
    Database × Bool :=
  match getTransaction (insertLink db parent_id child_id relationship_type) parent_id with
  | .error _ => (db, false)
  | .ok none => (insertLink db parent_id child_id relationship_type, true)
  | .ok (some parent) =>
    if parent.related_transactions.contains child_id then
      (insertLink db parent_id child_id relationship_type, true)
    else
      -- `save_transaction({parent with related_transactions ++ [child_id]})`
      -- is invoked here, but it deterministically fails with 'database is
      -- locked' (see the doc comment above) and writes nothing; its `False`
      -- return value is ignored.
      (insertLink db parent_id child_id relationship_type, true)

/-! ## Chain traversal -/

/-- The `SELECT child_id ... WHERE parent_id = ?` result followed by the
`SELECT parent_id ... WHERE child_id = ?` result: the neighbor ids of a
node, in the order `_get_related_transactions` iterates them. -/
def Database.neighbors (db : Database) (tid : String) : List String :=
  (db.links.filter (fun l => l.parent_id == tid)).map (fun l => l.child_id) ++
    (db.links.filter (fun l => l.child_id == tid)).map (fun l => l.parent_id)

/-- Every id mentioned on either end of a link. -/
def linkIds (links : List Link) : List String :=
  links.foldr (fun l acc => l.parent_id :: l.child_id :: acc) []

/-- One iteration of the `for related_id in child_ids + parent_ids` loop
of `_get_related_transactions`, threading the shared chain and visited
set: a visited id is skipped, an unvisited one is marked visited and
fetched; a missing record is skipped silently, a found record is appended
and recursed into through `expand`; an exception (`.error`) or exhausted
recursion budget (`none`) aborts the loop. -/
def dfsStep (db : Database)
    (expand : String → List Transaction → List String →
      Option (Except String (List Transaction × List String)))
    (acc : Option (Except String (List Transaction × List String))) (rid : String) :
    Option (Except String (List Transaction × List String)) :=
  match acc with
  | none => none
  | some (.error e) => some (.error e)
  | some (.ok (c, v)) =>
    if v.contains rid then acc
    else
      match getTransaction db rid with
      | .error e => some (.error e)
      | .ok none => some (.ok (c, rid :: v))
      | .ok (some tx) => expand rid (c ++ [tx]) (rid :: v)

/-- `Database._get_related_transactions`: depth-first traversal with a
shared visited set and accumulating chain.  `pending` is the neighbor
list the current `for` loop iterates over; each unvisited stored neighbor
is expanded one level deeper.  The Python recursion carries no budget;
`fuel` bounds the recursion depth and `none` marks exhaustion —
`dfsAux_fuel_irrelevant` below shows any budget of at least `chainFuel`
gives the same (non-`none`) answer, so the embedding agrees with the
unbounded recursion. -/
def dfsAux (db : Database) : Nat → List String → List Transaction → List String →
    Option (Except String (List Transaction × List String))
  | 0, pending, chain, visited =>
    pending.foldl (dfsStep db (fun _ _ _ => none)) (some (.ok (chain, visited)))
  | fuel + 1, pending, chain, visited =>
    pending.foldl (dfsStep db (fun rid c v => dfsAux db fuel (db.neighbors rid) c v))
      (some (.ok (chain, visited)))

/-- A recursion-depth budget that always suffices: one more than the
number of link-table endpoint mentions. -/
def chainFuel (db : Database) : Nat :=
  (linkIds db.links).length + 1

/-- The chronological comparator of `chain.sort(key=lambda t: t.timestamp)`. -/
def chronoLe (a b : Transaction) : Bool :=
  a.timestamp ≤ b.timestamp

/-- `Database.get_transaction_chain` at an explicit recursion budget:
fetch the start (absent start yields `[]`), seed the chain and visited
set, run the traversal, and sort the chain by timestamp. -/
def getTransactionChainF (db : Database) (tid : String) (fuel : Nat) :
    Except String (List Transaction) :=
  match getTransaction db tid with
  | .error e => .error e
  | .ok none => .ok []
  | .ok (some tx) =>
    match dfsAux db fuel (db.neighbors tid) [tx] [tid] with
    | none => .error "recursion depth exceeded"
    | some (.error e) => .error e
    | some (.ok (chain, _)) => .ok (listSort chronoLe chain)

/-- `Database.get_transaction_chain` (the budget `chainFuel` is never
exhausted: see `dfsAux_no_fuel_exhaustion`). -/
def getTransactionChain (db : Database) (tid : String) : Except String (List Transaction) :=
  getTransactionChainF db tid (chainFuel db)

/-! ## Semantic notions used by the claims -/

/-- The record `get_transaction` would return, `none` when the row is
absent or fails to decode. -/
def fetch (db : Database) (tid : String) : Option Transaction :=
  match getTransaction db tid with
  | .ok o => o
  | .error _ => none

/-- A record for this id is stored and decodes. -/
def present (db : Database) (tid : String) : Prop :=
  (fetch db tid).isSome = true

instance (db : Database) (tid : String) : Decidable (present db tid) := by
  unfold present; infer_instance

/-- Undirected adjacency over the `transaction_links` table. -/
def adjacent (db : Database) (x y : String) : Prop :=
  ∃ l ∈ db.links, (l.parent_id = x ∧ l.child_id = y) ∨ (l.parent_id = y ∧ l.child_id = x)

/-- Undirected reachability over the `transaction_links` table, the
relation named by the claims: any finite walk along link edges in either
direction, regardless of whether intermediate ids have stored records. -/
def ReachLink (db : Database) (s : String) (t : String) : Prop :=
  Relation.ReflTransGen (adjacent db) s t

/-- Reachability through stored records: a walk along link edges in
either direction all of whose nodes (start included) have stored,
decodable records. -/
inductive ReachStored (db : Database) (s : String) : String → Prop
  | refl : ReachStored db s s
  | step {x y : String} : ReachStored db s x → present db x → adjacent db x y →
      present db y → ReachStored db s y

/-- Well-formed store: every stored row decodes (every row was written by
`save_transaction`, which serializes canonically). -/
def Database.WF (db : Database) : Prop :=
  ∀ r ∈ db.transactions, ∃ t, decodeRow r = Except.ok t

instance (db : Database) : Decidable db.WF := by
  unfold Database.WF
  have : ∀ r : Row, Decidable (∃ t, decodeRow r = Except.ok t) := by
    intro r
    cases h : decodeRow r with
    | ok t => exact .isTrue ⟨t, rfl⟩
    | error e => exact .isFalse (by simp [h])
  exact List.decidableBAll _ _

deriving instance DecidableEq for Except

/-- How many link-table endpoint ids are still unvisited: the traversal's
termination measure. -/
def unvisitedCount (db : Database) (visited : List String) : Nat :=
  ((linkIds db.links).filter (fun i => !(visited.contains i))).length

/-- Forget the cached `related_transactions` view of a record (used to
state that traversal does not read it). -/
def scrub (t : Transaction) : Transaction :=
  { t with related_transactions := [] }

/-- Forget the `related_transactions` column of a row. -/
def scrubRow (r : Row) : Row :=
  { r with related_transactions := .enc [] }

/-! ## Concrete stores used to witness and refute the claims -/

/-- A representative stored transaction (timestamp instant 1). -/
def txA : Transaction :=
  { id := "A", timestamp := 1, transaction_type := .deposit, source := .manual,
    amount := 5, currency := "BTC", fee := 0, fee_currency := "", status := "completed",
    notes := "", raw_data := [("k", "v")], related_transactions := [] }

/-- A second transaction (timestamp instant 3). -/
def txB : Transaction :=
  { txA with id := "B", timestamp := 3, transaction_type := .withdrawal, amount := 2 }

/-- A third transaction (timestamp instant 2). -/
def txC : Transaction :=
  { txA with id := "C", timestamp := 2, transaction_type := .transfer }

/-- A different record under the id "A" (for the upsert claim). -/
def txA2 : Transaction :=
  { txA with amount := 9, notes := "updated", raw_data := [("x", "y")] }

/-- Store with rows A, B, C and no links. -/
def storeABC : Database :=
  ⟨[encodeTx txA, encodeTx txB, encodeTx txC], []⟩

/-- Store with rows A and B and a two-cycle of links between them. -/
def cycleDb : Database :=
  ⟨[encodeTx txA, encodeTx txB],
   [{ parent_id := "A", child_id := "B", relationship_type := "t" },
    { parent_id := "B", child_id := "A", relationship_type := "t" }]⟩

/-- Store with rows A and B only, but links A→X and X→B through the
dangling id X that has no record. -/
def danglingDb : Database :=
  ⟨[encodeTx txA, encodeTx txB],
   [{ parent_id := "A", child_id := "X", relationship_type := "t" },
    { parent_id := "X", child_id := "B", relationship_type := "t" }]⟩

/-- Store whose only row has malformed `raw_data` text (a corrupt
serialized blob, the spec's malformed-stored-data failure). -/
def corruptDb : Database :=
  ⟨[{ encodeTx txA with raw_data := .malformed "not json" }], []⟩

/-- Store with rows A, B, a link A→B, and A's cached
`related_transactions` view containing "Z". -/
def cacheDb1 : Database :=
  ⟨[encodeTx { txA with related_transactions := ["Z"] }, encodeTx txB],
   [{ parent_id := "A", child_id := "B", relationship_type := "t" }]⟩

/-- Same as `cacheDb1` except A's cached view is empty. -/
def cacheDb2 : Database :=
  ⟨[encodeTx txA, encodeTx txB],
   [{ parent_id := "A", child_id := "B", relationship_type := "t" }]⟩

/-! ## Lemmas about the timestamp encoding -/

theorem toDecimal_length (w : Nat) : ∀ n, (toDecimal w n).length = w := by
  induction w with
  | zero => intro n; rfl
  | succ w ih => intro n; simp [toDecimal, ih]

theorem digitChar_toNat {k : Nat} (hk : k < 10) : (Nat.digitChar k).toNat = 48 + k := by
  interval_cases k <;> rfl

theorem isDigitChar_digitChar {k : Nat} (hk : k < 10) : isDigitChar (Nat.digitChar k) = true := by
  interval_cases k <;> rfl

theorem toDecimal_all_digits (w : Nat) : ∀ n, (toDecimal w n).all isDigitChar = true := by
  induction w with
  | zero => intro n; rfl
  | succ w ih =>
    intro n
    simp only [toDecimal, List.all_append, List.all_cons, List.all_nil, Bool.and_eq_true]
    exact ⟨ih _, isDigitChar_digitChar (Nat.mod_lt _ (by norm_num)), trivial⟩

theorem valOf_append_singleton (cs : List Char) (c : Char) :
    valOf (cs ++ [c]) = valOf cs * 10 + (c.toNat - 48) := by
  simp [valOf, List.foldl_append]

theorem valOf_toDecimal (w : Nat) : ∀ n, valOf (toDecimal w n) = n % 10 ^ w := by
  induction w with
  | zero => intro n; simp [toDecimal, valOf, Nat.mod_one]
  | succ w ih =>
    intro n
    have h10 : (10 : Nat) ^ (w + 1) = 10 * 10 ^ w := by ring
    rw [toDecimal, valOf_append_singleton, ih,
      digitChar_toNat (Nat.mod_lt _ (by norm_num : (0:Nat) < 10)), h10,
      Nat.mod_mul]
    omega

theorem fromisoformat_isoformat {n : Nat} (hn : n < 10 ^ 20) :
    fromisoformat (isoformat n) = some n := by
  have hlen : (toDecimal 20 n).length = 20 := toDecimal_length 20 n
  have hdig : (toDecimal 20 n).all isDigitChar = true := toDecimal_all_digits 20 n
  have hval : valOf (toDecimal 20 n) = n := by
    rw [valOf_toDecimal]; exact Nat.mod_eq_of_lt hn
  simp [fromisoformat, isoformat, hlen, hdig, hval]

theorem valOf_bound : ∀ (cs : List Char), (∀ c ∈ cs, isDigitChar c = true) →
    ∀ a, cs.foldl (fun a c => a * 10 + (c.toNat - 48)) a < (a + 1) * 10 ^ cs.length := by
  intro cs
  induction cs with
  | nil =>
    intro _ a
    simp only [List.foldl_nil, List.length_nil, pow_zero, mul_one]
    omega
  | cons c cs ih =>
    intro h a
    have hc : isDigitChar c = true := h c (List.mem_cons_self c cs)
    have hd : c.toNat - 48 ≤ 9 := by
      simp only [isDigitChar, Bool.and_eq_true, decide_eq_true_eq] at hc
      omega
    have step := ih (fun x hx => h x (List.mem_cons_of_mem c hx)) (a * 10 + (c.toNat - 48))
    calc List.foldl (fun a c => a * 10 + (c.toNat - 48)) (a * 10 + (c.toNat - 48)) cs
        < (a * 10 + (c.toNat - 48) + 1) * 10 ^ cs.length := step
      _ ≤ ((a + 1) * 10) * 10 ^ cs.length := by
          apply Nat.mul_le_mul_right
          omega
      _ = (a + 1) * 10 ^ (c :: cs).length := by
          simp [List.length_cons]; ring

theorem fromisoformat_some_lt {s : String} {n : Nat} (h : fromisoformat s = some n) :
    n < 10 ^ 20 := by
  unfold fromisoformat at h
  split at h
  · next hcond =>
    simp only [Bool.and_eq_true, decide_eq_true_eq, List.all_eq_true] at hcond
    obtain ⟨hlen, hdig⟩ := hcond
    have := valOf_bound s.data hdig 0
    rw [hlen] at this
    simp only [Option.some.injEq] at h
    subst h
    simpa [valOf] using this
  · exact absurd h (by simp)

/-- Peeling off the most significant digit of a digit string. -/
theorem valOf_cons_aux : ∀ (cs : List Char) (a : Nat),
    cs.foldl (fun a c => a * 10 + (c.toNat - 48)) a = a * 10 ^ cs.length + valOf cs := by
  intro cs
  induction cs with
  | nil => intro a; simp [valOf]
  | cons c cs ih =>
    intro a
    have hcons : valOf (c :: cs) = (c.toNat - 48) * 10 ^ cs.length + valOf cs := by
      have h2 := ih (c.toNat - 48)
      simp only [valOf, List.foldl_cons, Nat.zero_mul, Nat.zero_add]
      exact h2
    simp only [List.foldl_cons, List.length_cons]
    rw [ih (a * 10 + (c.toNat - 48)), hcons]
    ring

theorem valOf_cons (c : Char) (cs : List Char) :
    valOf (c :: cs) = (c.toNat - 48) * 10 ^ cs.length + valOf cs := by
  have h2 := valOf_cons_aux cs (c.toNat - 48)
  simp only [valOf, List.foldl_cons, Nat.zero_mul, Nat.zero_add]
  exact h2

theorem valOf_lt_pow {cs : List Char} (h : ∀ c ∈ cs, isDigitChar c = true) :
    valOf cs < 10 ^ cs.length := by
  simpa [valOf] using valOf_bound cs h 0

/-- On equal-length digit strings, bytewise order is numeric order. -/
theorem lexLt_iff_valOf : ∀ (cs ds : List Char), cs.length = ds.length →
    (∀ c ∈ cs, isDigitChar c = true) → (∀ c ∈ ds, isDigitChar c = true) →
    (lexLt cs ds = true ↔ valOf cs < valOf ds) := by
  intro cs
  induction cs with
  | nil =>
    intro ds hlen _ _
    cases ds with
    | nil => simp [lexLt, valOf]
    | cons d ds => simp at hlen
  | cons c cs ih =>
    intro ds hlen hc hd
    cases ds with
    | nil => simp at hlen
    | cons d ds =>
      have hlen' : cs.length = ds.length := by simpa using hlen
      have hcd : isDigitChar c = true := hc c (List.mem_cons_self c cs)
      have hdd : isDigitChar d = true := hd d (List.mem_cons_self d ds)
      have hc' : ∀ x ∈ cs, isDigitChar x = true := fun x hx => hc x (List.mem_cons_of_mem c hx)
      have hd' : ∀ x ∈ ds, isDigitChar x = true := fun x hx => hd x (List.mem_cons_of_mem d hx)
      have hvc : valOf cs < 10 ^ cs.length := valOf_lt_pow hc'
      have hvd : valOf ds < 10 ^ ds.length := valOf_lt_pow hd'
      have hc48 : 48 ≤ c.toNat := by
        simp only [isDigitChar, Bool.and_eq_true, decide_eq_true_eq] at hcd; omega
      have hd48 : 48 ≤ d.toNat := by
        simp only [isDigitChar, Bool.and_eq_true, decide_eq_true_eq] at hdd; omega
      rw [valOf_cons, valOf_cons, ← hlen']
      rcases Nat.lt_trichotomy c.toNat d.toNat with hlt | heq | hgt
      · have hb : lexLt (c :: cs) (d :: ds) = true := by
          simp [lexLt, hlt]
        rw [hb]
        simp only [true_iff]
        have hsub : c.toNat - 48 + 1 ≤ d.toNat - 48 := by omega
        calc (c.toNat - 48) * 10 ^ cs.length + valOf cs
            < (c.toNat - 48) * 10 ^ cs.length + 10 ^ cs.length := by omega
          _ = (c.toNat - 48 + 1) * 10 ^ cs.length := by ring
          _ ≤ (d.toNat - 48) * 10 ^ cs.length := Nat.mul_le_mul_right _ hsub
          _ ≤ (d.toNat - 48) * 10 ^ cs.length + valOf ds := Nat.le_add_right _ _
      · have hb : lexLt (c :: cs) (d :: ds) = lexLt cs ds := by
          simp [lexLt, heq]
        rw [hb, heq, Nat.add_lt_add_iff_left]
        exact ih ds hlen' hc' hd'
      · have hb : lexLt (c :: cs) (d :: ds) = false := by
          simp only [lexLt, Bool.or_eq_false_iff, Bool.and_eq_false_iff]
          constructor
          · exact decide_eq_false (by omega)
          · left
            simp only [beq_eq_false_iff_ne, ne_eq]
            omega
        rw [hb]
        apply iff_of_false (by simp)
        simp only [not_lt]
        have hsub : d.toNat - 48 + 1 ≤ c.toNat - 48 := by omega
        have hvd2 : valOf ds < 10 ^ cs.length := by rw [hlen']; exact hvd
        have hchain : (d.toNat - 48) * 10 ^ cs.length + valOf ds
            < (c.toNat - 48) * 10 ^ cs.length + valOf cs :=
          calc (d.toNat - 48) * 10 ^ cs.length + valOf ds
              < (d.toNat - 48) * 10 ^ cs.length + 10 ^ cs.length := by omega
            _ = (d.toNat - 48 + 1) * 10 ^ cs.length := by ring
            _ ≤ (c.toNat - 48) * 10 ^ cs.length := Nat.mul_le_mul_right _ hsub
            _ ≤ (c.toNat - 48) * 10 ^ cs.length + valOf cs := Nat.le_add_right _ _
        exact le_of_lt hchain

theorem lexLt_asymm : ∀ (as bs : List Char), lexLt as bs = true → lexLt bs as = false := by
  intro as
  induction as with
  | nil =>
    intro bs h
    cases bs with
    | nil => simp [lexLt] at h
    | cons b bs => rfl
  | cons a as ih =>
    intro bs h
    cases bs with
    | nil => simp [lexLt] at h
    | cons b bs =>
      simp only [lexLt, Bool.or_eq_true, Bool.and_eq_true, decide_eq_true_eq, beq_iff_eq] at h
      simp only [lexLt, Bool.or_eq_false_iff, Bool.and_eq_false_iff]
      rcases h with hlt | ⟨heq, hr⟩
      · constructor
        · simp; omega
        · left; simp; omega
      · constructor
        · simp; omega
        · right; exact ih bs hr

theorem lexLt_false_trans : ∀ (as bs cs : List Char),
    lexLt bs as = false → lexLt cs bs = false → lexLt cs as = false := by
  intro as
  induction as with
  | nil =>
    intro bs cs h1 h2
    cases cs with
    | nil => rfl
    | cons c cs => rfl
  | cons a as ih =>
    intro bs cs h1 h2
    cases bs with
    | nil => simp [lexLt] at h1
    | cons b bs =>
      cases cs with
      | nil => simp [lexLt] at h2
      | cons c cs =>
        simp only [lexLt, Bool.or_eq_false_iff, Bool.and_eq_false_iff] at h1 h2 ⊢
        obtain ⟨h1a, h1b⟩ := h1
        obtain ⟨h2a, h2b⟩ := h2
        simp only [decide_eq_false_iff_not, not_lt, beq_eq_false_iff_ne, ne_eq] at h1a h2a
        constructor
        · simp; omega
        · rcases h1b with h1c | h1r
          · left; simp only [beq_eq_false_iff_ne, ne_eq] at h1c ⊢; omega
          · rcases h2b with h2c | h2r
            · left; simp only [beq_eq_false_iff_ne, ne_eq] at h2c ⊢; omega
            · right; exact ih bs cs h1r h2r

/-! ## Generic facts about the stable insertion sort -/

theorem sortedInsert_perm {α : Type} (le : α → α → Bool) (a : α) :
    ∀ l : List α, (sortedInsert le a l).Perm (a :: l) := by
  intro l
  induction l with
  | nil => exact List.Perm.refl _
  | cons b l ih =>
    by_cases h : le a b
    · simp only [sortedInsert, h, if_true]
      exact List.Perm.refl _
    · simp only [sortedInsert, h, if_false]
      exact (ih.cons b).trans (List.Perm.swap a b l)

theorem listSort_perm {α : Type} (le : α → α → Bool) :
    ∀ l : List α, (listSort le l).Perm l := by
  intro l
  induction l with
  | nil => exact List.Perm.refl _
  | cons a l ih =>
    exact (sortedInsert_perm le a (listSort le l)).trans (ih.cons a)

theorem mem_sortedInsert {α : Type} (le : α → α → Bool) (a x : α) (l : List α) :
    x ∈ sortedInsert le a l ↔ x = a ∨ x ∈ l := by
  rw [(sortedInsert_perm le a l).mem_iff, List.mem_cons]

theorem sortedInsert_pairwise {α : Type} {le : α → α → Bool}
    (htot : ∀ x y, le x y = true ∨ le y x = true)
    (htrans : ∀ x y z, le x y = true → le y z = true → le x z = true)
    (a : α) : ∀ l : List α, l.Pairwise (fun x y => le x y = true) →
    (sortedInsert le a l).Pairwise (fun x y => le x y = true) := by
  intro l
  induction l with
  | nil => intro _; exact List.pairwise_cons.mpr ⟨by simp, List.Pairwise.nil⟩
  | cons b l ih =>
    intro hp
    obtain ⟨hb, hl⟩ := List.pairwise_cons.mp hp
    by_cases h : le a b
    · simp only [sortedInsert, h, if_true]
      refine List.pairwise_cons.mpr ⟨?_, hp⟩
      intro x hx
      rcases List.mem_cons.mp hx with rfl | hx
      · exact h
      · exact htrans a b x h (hb x hx)
    · simp only [sortedInsert, h, if_false]
      refine List.pairwise_cons.mpr ⟨?_, ih hl⟩
      intro x hx
      rcases (mem_sortedInsert le a x l).mp hx with rfl | hx
      · rcases htot x b with h1 | h1
        · exact absurd h1 (by simpa using h)
        · exact h1
      · exact hb x hx

theorem listSort_pairwise {α : Type} {le : α → α → Bool}
    (htot : ∀ x y, le x y = true ∨ le y x = true)
    (htrans : ∀ x y z, le x y = true → le y z = true → le x z = true) :
    ∀ l : List α, (listSort le l).Pairwise (fun x y => le x y = true) := by
  intro l
  induction l with
  | nil => exact List.Pairwise.nil
  | cons a l ih => exact sortedInsert_pairwise htot htrans a (listSort le l) ih

theorem sortedInsert_map_congr {α β : Type} (le : α → α → Bool) (kle : β → β → Bool)
    (f : α → β) (hf : ∀ x y, le x y = kle (f x) (f y)) :
    ∀ (l₁ l₂ : List α) (a₁ a₂ : α), f a₁ = f a₂ → l₁.map f = l₂.map f →
      (sortedInsert le a₁ l₁).map f = (sortedInsert le a₂ l₂).map f := by
  intro l₁
  induction l₁ with
  | nil =>
    intro l₂ a₁ a₂ ha hl
    cases l₂ with
    | nil => simp [sortedInsert, ha]
    | cons b₂ l₂ => simp at hl
  | cons b₁ l₁ ih =>
    intro l₂ a₁ a₂ ha hl
    cases l₂ with
    | nil => simp at hl
    | cons b₂ l₂ =>
      simp only [List.map_cons, List.cons.injEq] at hl
      obtain ⟨hb, hl'⟩ := hl
      have hbranch : le a₁ b₁ = le a₂ b₂ := by rw [hf, hf, ha, hb]
      by_cases h : le a₁ b₁
      · simp only [sortedInsert, h, hbranch ▸ h, if_true, List.map_cons, ha, hb, hl']
      · have h2 : le a₂ b₂ = false := by rw [← hbranch]; simpa using h
        simp only [sortedInsert, h, h2, if_false, Bool.false_eq_true, List.map_cons, hb]
        rw [ih l₂ a₁ a₂ ha hl']

theorem listSort_map_congr {α β : Type} (le : α → α → Bool) (kle : β → β → Bool)
    (f : α → β) (hf : ∀ x y, le x y = kle (f x) (f y)) :
    ∀ (l₁ l₂ : List α), l₁.map f = l₂.map f →
      (listSort le l₁).map f = (listSort le l₂).map f := by
  intro l₁
  induction l₁ with
  | nil =>
    intro l₂ hl
    cases l₂ with
    | nil => rfl
    | cons b₂ l₂ => simp at hl
  | cons a₁ l₁ ih =>
    intro l₂ hl
    cases l₂ with
    | nil => simp at hl
    | cons a₂ l₂ =>
      simp only [List.map_cons, List.cons.injEq] at hl
      obtain ⟨ha, hl'⟩ := hl
      exact sortedInsert_map_congr le kle f hf _ _ a₁ a₂ ha (ih l₂ hl')

/-! ## Round-trip facts about the serialized representation -/

theorem transactionType_roundtrip (t : TransactionType) :
    TransactionType.ofValue t.value = some t := by
  cases t <;> rfl

theorem transactionSource_roundtrip (s : TransactionSource) :
    TransactionSource.ofValue s.value = some s := by
  cases s <;> rfl

/-- Decoding inverts encoding for any transaction whose timestamp is a
representable instant. -/
theorem decodeRow_encodeTx {t : Transaction} (h : t.timestamp < 10 ^ 20) :
    decodeRow (encodeTx t) = Except.ok t := by
  simp only [decodeRow, encodeTx, JsonText.loads, fromisoformat_isoformat h,
    transactionType_roundtrip, transactionSource_roundtrip]

/-- The id column of the row written for a transaction. -/
theorem encodeTx_id (t : Transaction) : (encodeTx t).id = t.id := rfl

/-- Everything a successful decode says about the row and the result. -/
theorem decodeRow_ok_elim {r : Row} {t : Transaction} (h : decodeRow r = Except.ok t) :
    r.raw_data.loads = some t.raw_data ∧
    r.related_transactions.loads = some t.related_transactions ∧
    fromisoformat r.timestamp = some t.timestamp ∧
    TransactionType.ofValue r.transaction_type = some t.transaction_type ∧
    TransactionSource.ofValue r.source = some t.source ∧
    t.id = r.id ∧ t.amount = r.amount ∧ t.currency = r.currency ∧ t.fee = r.fee ∧
    t.fee_currency = r.fee_currency ∧ t.status = r.status ∧ t.notes = r.notes := by
  unfold decodeRow at h
  cases hraw : r.raw_data.loads with
  | none =>
    simp only [hraw] at h
    exact Except.noConfusion h
  | some rd =>
    simp only [hraw] at h
    cases hrel : r.related_transactions.loads with
    | none =>
      simp only [hrel] at h
      exact Except.noConfusion h
    | some rel =>
      simp only [hrel] at h
      cases hts : fromisoformat r.timestamp with
      | none =>
        simp only [hts] at h
        exact Except.noConfusion h
      | some ts =>
        simp only [hts] at h
        cases hty : TransactionType.ofValue r.transaction_type with
        | none =>
          simp only [hty] at h
          exact Except.noConfusion h
        | some ty =>
          simp only [hty] at h
          cases hsrc : TransactionSource.ofValue r.source with
          | none =>
            simp only [hsrc] at h
            exact Except.noConfusion h
          | some src =>
            simp only [hsrc, Except.ok.injEq] at h
            subst h
            exact ⟨rfl, rfl, rfl, rfl, rfl, rfl, rfl, rfl, rfl, rfl, rfl, rfl⟩

/-- Decoding preserves the id column. -/
theorem decodeRow_id {r : Row} {t : Transaction} (h : decodeRow r = Except.ok t) :
    t.id = r.id :=
  (decodeRow_ok_elim h).2.2.2.2.2.1

/-- A decoded timestamp is the parse of the stored text. -/
theorem decodeRow_timestamp {r : Row} {t : Transaction} (h : decodeRow r = Except.ok t) :
    fromisoformat r.timestamp = some t.timestamp :=
  (decodeRow_ok_elim h).2.2.1

/-- A decoded timestamp is a representable instant. -/
theorem decodeRow_timestamp_lt {r : Row} {t : Transaction} (h : decodeRow r = Except.ok t) :
    t.timestamp < 10 ^ 20 :=
  fromisoformat_some_lt (decodeRow_timestamp h)

/-! ## Basic store lemmas -/

/-- After a save, the lookup scan finds exactly the freshly written row. -/
theorem find?_save (db : Database) (t : Transaction) :
    ((saveTransaction db t).1).transactions.find? (fun r => r.id == t.id)
      = some (encodeTx t) := by
  show ((db.transactions.filter (fun r => !(r.id == t.id))) ++ [encodeTx t]).find?
      (fun r => r.id == t.id) = some (encodeTx t)
  rw [List.find?_append]
  have h1 : (db.transactions.filter (fun r => !(r.id == t.id))).find?
      (fun r => r.id == t.id) = none := by
    rw [List.find?_eq_none]
    intro r hr
    have h2 := List.of_mem_filter hr
    simp only [Bool.not_eq_eq_eq_not, Bool.not_true] at h2
    simp [h2]
  rw [h1]
  simp [List.find?, encodeTx_id]

/-- Unpacking a successful point lookup. -/
theorem getTransaction_ok_some {db : Database} {tid : String} {t : Transaction}
    (h : getTransaction db tid = Except.ok (some t)) :
    ∃ row, db.transactions.find? (fun r => r.id == tid) = some row ∧
      decodeRow row = Except.ok t ∧ t.id = tid := by
  unfold getTransaction at h
  cases hf : db.transactions.find? (fun r => r.id == tid) with
  | none =>
    rw [hf] at h
    exact absurd (Except.ok.inj h) (by simp)
  | some row =>
    rw [hf] at h
    have h2 : Except.map some (decodeRow row) = Except.ok (some t) := h
    cases hd : decodeRow row with
    | error e =>
      rw [hd] at h2
      exact Except.noConfusion h2
    | ok t2 =>
      rw [hd] at h2
      have ht : t2 = t := by
        simp only [Except.map, Except.ok.injEq] at h2
        exact Option.some.inj h2
      subst ht
      have hpred := List.find?_some hf
      simp only [beq_iff_eq] at hpred
      exact ⟨row, rfl, hd, (decodeRow_id hd).trans hpred⟩

/-- `get_transaction` only reads the `transactions` table. -/
theorem getTransaction_links_irrelevant (txs : List Row) (l1 l2 : List Link) (tid : String) :
    getTransaction ⟨txs, l1⟩ tid = getTransaction ⟨txs, l2⟩ tid := rfl

/-- Reading back a freshly saved valid record returns exactly it. -/
theorem getTransaction_saveTransaction (db : Database) (t : Transaction)
    (hvalid : t.timestamp < 10 ^ 20) :
    getTransaction (saveTransaction db t).1 t.id = Except.ok (some t) := by
  unfold getTransaction
  rw [find?_save]
  show Except.map some (decodeRow (encodeTx t)) = Except.ok (some t)
  rw [decodeRow_encodeTx hvalid]
  rfl

/-! ## C2: save/get round-trip -/

/-- C2: for every structurally valid transaction (its timestamp a
representable instant), a successful save round-trips: the subsequent
point lookup returns the very same record, timestamp, enum fields,
`raw_data` and `related_transactions` included. -/
theorem save_get_roundtrip (db : Database) (t : Transaction)
    (hvalid : t.timestamp < 10 ^ 20)
    (_hsuccess : (saveTransaction db t).2 = true) :
    getTransaction (saveTransaction db t).1 t.id = Except.ok (some t) :=
  getTransaction_saveTransaction db t hvalid

/-- Witness for C2 at a concrete store and record. -/
theorem save_get_roundtrip_witness :
    txA.timestamp < 10 ^ 20 ∧ (saveTransaction ⟨[], []⟩ txA).2 = true ∧
      getTransaction (saveTransaction ⟨[], []⟩ txA).1 txA.id = Except.ok (some txA) :=
  ⟨by norm_num [txA], rfl, save_get_roundtrip ⟨[], []⟩ txA (by norm_num [txA]) rfl⟩

/-! ## C3: keyed upsert -/

/-- C3: saving twice under one id never fails on the duplicate and leaves
exactly one record under that id, the one written last; when the later
record is structurally valid the lookup returns exactly it. -/
theorem save_upsert_replaces (db : Database) (t1 t2 : Transaction)
    (hid : t1.id = t2.id) (hvalid : t2.timestamp < 10 ^ 20) :
    (saveTransaction db t1).2 = true ∧
    (saveTransaction (saveTransaction db t1).1 t2).2 = true ∧
    ((saveTransaction (saveTransaction db t1).1 t2).1).transactions.filter
        (fun r => r.id == t2.id) = [encodeTx t2] ∧
    getTransaction (saveTransaction (saveTransaction db t1).1 t2).1 t2.id
      = Except.ok (some t2) := by
  refine ⟨rfl, rfl, ?_, ?_⟩
  · show (((db.transactions.filter (fun r => !(r.id == t1.id)) ++ [encodeTx t1]).filter
        (fun r => !(r.id == t2.id))) ++ [encodeTx t2]).filter (fun r => r.id == t2.id)
      = [encodeTx t2]
    have he1id : (encodeTx t1).id = t2.id := by rw [encodeTx_id, hid]
    have hsingle1 : [encodeTx t1].filter (fun r => !(r.id == t2.id)) = [] := by
      simp [List.filter, he1id]
    have hsingle2 : [encodeTx t2].filter (fun r => r.id == t2.id) = [encodeTx t2] := by
      simp [List.filter, encodeTx_id]
    have hbase : db.transactions.filter
        (fun r => ((r.id == t2.id) && !(r.id == t2.id)) && !(r.id == t1.id)) = [] := by
      apply List.filter_eq_nil_iff.mpr
      intro r _
      by_cases hr : r.id = t2.id <;> simp [hr]
    rw [List.filter_append, List.filter_append, hsingle1, List.append_nil,
      List.filter_filter, List.filter_filter, hbase, hsingle2, List.nil_append]
  · unfold getTransaction
    rw [find?_save]
    show Except.map some (decodeRow (encodeTx t2)) = Except.ok (some t2)
    rw [decodeRow_encodeTx hvalid]
    rfl

/-- Witness for C3 at two concrete records sharing the id "A". -/
theorem save_upsert_replaces_witness :
    txA.id = txA2.id ∧ txA2.timestamp < 10 ^ 20 ∧
    ((saveTransaction (saveTransaction ⟨[], []⟩ txA).1 txA2).1).transactions.filter
        (fun r => r.id == txA2.id) = [encodeTx txA2] :=
  ⟨rfl, by norm_num [txA2, txA],
   (save_upsert_replaces ⟨[], []⟩ txA txA2 rfl (by norm_num [txA2, txA])).2.2.1⟩

/-! ## C7: not-found is non-exceptional -/

/-- C7: an id with no stored record is a normal outcome: the point lookup
returns the absent sentinel and the chain is empty; neither raises. -/
theorem notFound_is_normal (db : Database) (tid : String)
    (habsent : ∀ r ∈ db.transactions, r.id ≠ tid) :
    getTransaction db tid = Except.ok none ∧ getTransactionChain db tid = Except.ok [] := by
  have hfind : db.transactions.find? (fun r => r.id == tid) = none := by
    rw [List.find?_eq_none]
    intro r hr
    simp [habsent r hr]
  constructor
  · unfold getTransaction
    rw [hfind]
  · unfold getTransactionChain getTransactionChainF getTransaction
    rw [hfind]

/-- Witness for C7: the id "Z" is absent from the three-row store. -/
theorem notFound_is_normal_witness :
    (∀ r ∈ storeABC.transactions, r.id ≠ "Z") ∧
    getTransaction storeABC "Z" = Except.ok none ∧
    getTransactionChain storeABC "Z" = Except.ok [] :=
  ⟨by decide, notFound_is_normal storeABC "Z" (by decide)⟩

/-! ## C9: exception propagation at the store boundary -/

/-- C9 counterexample: on a store whose one row holds malformed
`raw_data` text, `get_transaction` (which has no `try`/`except`) lets the
`json.loads` failure escape instead of returning a sentinel, and
`get_transaction_chain` propagates it too — refuting the claim that every
store operation converts stored-data failures into boolean or
empty/absent results. -/
theorem get_propagates_malformed :
    getTransaction corruptDb "A" = Except.error "json.loads raw_data" ∧
    getTransactionChain corruptDb "A" = Except.error "json.loads raw_data" := by
  constructor <;> rfl

/-- C9 amended: the two mutating operations do catch failures raised
inside their `try` blocks — in particular, when re-reading the parent
raises, `link_transactions` returns `False` (and the uncommitted edge is
rolled back) rather than letting the exception escape. -/
theorem link_catches_decode_failure (db : Database) (p c rt e : String)
    (herr : getTransaction db p = Except.error e) :
    linkTransactions db p c rt = (db, false) := by
  unfold linkTransactions
  have h2 : getTransaction (insertLink db p c rt) p = Except.error e := herr
  rw [h2]

/-- Witness for the amended C9 on the corrupt store. -/
theorem link_catches_decode_failure_witness :
    getTransaction corruptDb "A" = Except.error "json.loads raw_data" ∧
    linkTransactions corruptDb "A" "B" "t" = (corruptDb, false) :=
  ⟨rfl, link_catches_decode_failure corruptDb "A" "B" "t" "json.loads raw_data" rfl⟩

/-! ## C4: linking and the parent's cached view -/

/-- C4 (code bug, evaluated at the failing input): on the three-row
store, `link_transactions("A", "B", "t")` reports success, yet the
record `get_transaction("A")` returns afterwards is the unchanged `txA`,
whose `related_transactions` does not contain "B".  The program's
parent-update step is a deterministic no-op: the nested
`save_transaction` write is blocked by the link connection's own
uncommitted edge insert, fails with 'database is locked', and its
`False` return is discarded — so the invariant the spec states (and the
code visibly intends, having the append-and-save logic right there) does
not hold. -/
theorem link_fails_to_update_parent_cache :
    (linkTransactions storeABC "A" "B" "t").2 = true ∧
    getTransaction (linkTransactions storeABC "A" "B" "t").1 "A"
        = Except.ok (some txA) ∧
    "B" ∉ txA.related_transactions :=
  ⟨by decide, by decide, by decide⟩

/-! ## Unfolding equations of the traversal -/

theorem foldl_dfsStep_none (db : Database)
    (expand : String → List Transaction → List String →
      Option (Except String (List Transaction × List String))) :
    ∀ rest : List String, rest.foldl (dfsStep db expand) none = none := by
  intro rest
  induction rest with
  | nil => rfl
  | cons a l ih =>
    rw [List.foldl_cons]
    exact ih

theorem foldl_dfsStep_error (db : Database)
    (expand : String → List Transaction → List String →
      Option (Except String (List Transaction × List String))) (e : String) :
    ∀ rest : List String, rest.foldl (dfsStep db expand) (some (Except.error e))
      = some (Except.error e) := by
  intro rest
  induction rest with
  | nil => rfl
  | cons a l ih =>
    rw [List.foldl_cons]
    exact ih

/-- Both fuel cases of `dfsAux` are the same fold; the expansion callback
inspects the budget. -/
theorem dfsAux_eq (db : Database) (fuel : Nat) (pending : List String)
    (chain : List Transaction) (visited : List String) :
    dfsAux db fuel pending chain visited
      = pending.foldl
          (dfsStep db (fun rid c v =>
            match fuel with
            | 0 => none
            | fuel' + 1 => dfsAux db fuel' (db.neighbors rid) c v))
          (some (Except.ok (chain, visited))) := by
  cases fuel <;> rfl

theorem dfsAux_nil (db : Database) (fuel : Nat) (chain : List Transaction)
    (visited : List String) :
    dfsAux db fuel [] chain visited = some (Except.ok (chain, visited)) := by
  cases fuel <;> rfl

theorem dfsAux_cons_visited {db : Database} {fuel : Nat} {rid : String} {rest : List String}
    {chain : List Transaction} {visited : List String}
    (h : visited.contains rid = true) :
    dfsAux db fuel (rid :: rest) chain visited = dfsAux db fuel rest chain visited := by
  rw [dfsAux_eq db fuel (rid :: rest), List.foldl_cons,
    show dfsStep db _ (some (Except.ok (chain, visited))) rid
        = some (Except.ok (chain, visited)) by rw [dfsStep]; rw [if_pos h],
    ← dfsAux_eq]

theorem dfsAux_cons_error {db : Database} {fuel : Nat} {rid : String} {rest : List String}
    {chain : List Transaction} {visited : List String} {e : String}
    (h1 : visited.contains rid = false) (h2 : getTransaction db rid = Except.error e) :
    dfsAux db fuel (rid :: rest) chain visited = some (Except.error e) := by
  rw [dfsAux_eq db fuel (rid :: rest), List.foldl_cons,
    show dfsStep db _ (some (Except.ok (chain, visited))) rid = some (Except.error e) by
      rw [dfsStep]
      rw [if_neg (by simpa using h1), h2],
    foldl_dfsStep_error]

theorem dfsAux_cons_none {db : Database} {fuel : Nat} {rid : String} {rest : List String}
    {chain : List Transaction} {visited : List String}
    (h1 : visited.contains rid = false) (h2 : getTransaction db rid = Except.ok none) :
    dfsAux db fuel (rid :: rest) chain visited
      = dfsAux db fuel rest chain (rid :: visited) := by
  rw [dfsAux_eq db fuel (rid :: rest), List.foldl_cons,
    show dfsStep db _ (some (Except.ok (chain, visited))) rid
        = some (Except.ok (chain, rid :: visited)) by
      rw [dfsStep]
      rw [if_neg (by simpa using h1), h2],
    ← dfsAux_eq]

theorem dfsAux_cons_some_zero {db : Database} {rid : String} {rest : List String}
    {chain : List Transaction} {visited : List String} {tx : Transaction}
    (h1 : visited.contains rid = false) (h2 : getTransaction db rid = Except.ok (some tx)) :
    dfsAux db 0 (rid :: rest) chain visited = none := by
  rw [dfsAux_eq db 0 (rid :: rest), List.foldl_cons,
    show dfsStep db _ (some (Except.ok (chain, visited))) rid = none by
      rw [dfsStep]
      rw [if_neg (by simpa using h1), h2],
    foldl_dfsStep_none]

theorem dfsAux_succ_eq (db : Database) (fuel : Nat) (pending : List String)
    (chain : List Transaction) (visited : List String) :
    dfsAux db (fuel + 1) pending chain visited
      = pending.foldl
          (dfsStep db (fun rid c v => dfsAux db fuel (db.neighbors rid) c v))
          (some (Except.ok (chain, visited))) := rfl

theorem dfsAux_cons_some_succ {db : Database} {fuel : Nat} {rid : String} {rest : List String}
    {chain : List Transaction} {visited : List String} {tx : Transaction}
    (h1 : visited.contains rid = false) (h2 : getTransaction db rid = Except.ok (some tx)) :
    dfsAux db (fuel + 1) (rid :: rest) chain visited
      = match dfsAux db fuel (db.neighbors rid) (chain ++ [tx]) (rid :: visited) with
        | none => none
        | some (.error e) => some (.error e)
        | some (.ok (chain1, visited1)) => dfsAux db (fuel + 1) rest chain1 visited1 := by
  rw [dfsAux_succ_eq db fuel (rid :: rest), List.foldl_cons,
    show dfsStep db (fun rid c v => dfsAux db fuel (db.neighbors rid) c v)
        (some (Except.ok (chain, visited))) rid
        = dfsAux db fuel (db.neighbors rid) (chain ++ [tx]) (rid :: visited) by
      rw [dfsStep]
      rw [if_neg (by simpa using h1), h2]]
  cases hinner : dfsAux db fuel (db.neighbors rid) (chain ++ [tx]) (rid :: visited) with
  | none => exact foldl_dfsStep_none db _ rest
  | some res =>
    cases res with
    | error e => exact foldl_dfsStep_error db _ e rest
    | ok cv =>
      obtain ⟨c1, v1⟩ := cv
      rw [← dfsAux_succ_eq]


/-! ## The visited set only grows, and pending ids end up visited -/

theorem dfsAux_mono (db : Database) :
    ∀ (fuel : Nat) (pending : List String) (chain : List Transaction) (visited : List String)
      (chain2 : List Transaction) (visited2 : List String),
      dfsAux db fuel pending chain visited = some (Except.ok (chain2, visited2)) →
      visited ⊆ visited2 ∧ pending ⊆ visited2 := by
  intro fuel
  induction fuel using Nat.strong_induction_on with
  | _ fuel IHf =>
    intro pending
    induction pending with
    | nil =>
      intro chain visited chain2 visited2 h
      rw [dfsAux_nil] at h
      simp only [Option.some.injEq, Except.ok.injEq, Prod.mk.injEq] at h
      obtain ⟨h1, h2⟩ := h
      subst h2
      exact ⟨List.Subset.refl _, List.nil_subset _⟩
    | cons rid rest IHp =>
      intro chain visited chain2 visited2 h
      by_cases hc : visited.contains rid = true
      · rw [dfsAux_cons_visited hc] at h
        obtain ⟨hv, hp⟩ := IHp chain visited chain2 visited2 h
        refine ⟨hv, ?_⟩
        intro x hx
        rcases List.mem_cons.mp hx with rfl | hx
        · exact hv (by simpa using hc)
        · exact hp hx
      · have hc2 : visited.contains rid = false := by simpa using hc
        cases hget : getTransaction db rid with
        | error e =>
          rw [dfsAux_cons_error hc2 hget] at h
          exact Except.noConfusion (Option.some.inj h)
        | ok o =>
          cases o with
          | none =>
            rw [dfsAux_cons_none hc2 hget] at h
            obtain ⟨hv, hp⟩ := IHp chain (rid :: visited) chain2 visited2 h
            refine ⟨fun x hx => hv (List.mem_cons_of_mem rid hx), ?_⟩
            intro x hx
            rcases List.mem_cons.mp hx with rfl | hx
            · exact hv (List.mem_cons_self _ _)
            · exact hp hx
          | some tx =>
            cases fuel with
            | zero =>
              rw [dfsAux_cons_some_zero hc2 hget] at h
              exact Option.noConfusion h
            | succ fuel1 =>
              rw [dfsAux_cons_some_succ hc2 hget] at h
              cases hinner : dfsAux db fuel1 (db.neighbors rid) (chain ++ [tx])
                  (rid :: visited) with
              | none =>
                rw [hinner] at h
                exact Option.noConfusion h
              | some res =>
                cases res with
                | error e =>
                  rw [hinner] at h
                  exact Except.noConfusion (Option.some.inj h)
                | ok cv =>
                  obtain ⟨c1, v1⟩ := cv
                  rw [hinner] at h
                  have h2 : dfsAux db (fuel1 + 1) rest c1 v1
                      = some (Except.ok (chain2, visited2)) := h
                  obtain ⟨hvin, hpin⟩ := IHf fuel1 (Nat.lt_succ_self _) (db.neighbors rid)
                    (chain ++ [tx]) (rid :: visited) c1 v1 hinner
                  obtain ⟨hv1, hp1⟩ := IHp c1 v1 chain2 visited2 h2
                  refine ⟨fun x hx => hv1 (hvin (List.mem_cons_of_mem rid hx)), ?_⟩
                  intro x hx
                  rcases List.mem_cons.mp hx with rfl | hx
                  · exact hv1 (hvin (List.mem_cons_self _ _))
                  · exact hp1 hx

/-! ## Counting unvisited link endpoints -/

theorem length_filter_mono {α : Type} (p q : α → Bool) (h : ∀ x, q x = true → p x = true) :
    ∀ l : List α, (l.filter q).length ≤ (l.filter p).length := by
  intro l
  induction l with
  | nil => simp
  | cons a l ih =>
    by_cases hq : q a
    · rw [List.filter_cons_of_pos hq, List.filter_cons_of_pos (h a hq)]
      simpa using ih
    · rw [List.filter_cons_of_neg (by simpa using hq)]
      by_cases hp : p a
      · rw [List.filter_cons_of_pos hp]
        exact le_trans ih (by simp)
      · rw [List.filter_cons_of_neg (by simpa using hp)]
        exact ih

theorem length_filter_strict {α : Type} (p q : α → Bool) (h : ∀ x, q x = true → p x = true) :
    ∀ (l : List α) (a : α), a ∈ l → p a = true → q a = false →
      (l.filter q).length < (l.filter p).length := by
  intro l
  induction l with
  | nil => intro a ha; simp at ha
  | cons b l ih =>
    intro a ha hpa hqa
    rcases List.mem_cons.mp ha with rfl | ha
    · rw [List.filter_cons_of_neg (by simp [hqa]), List.filter_cons_of_pos hpa]
      exact Nat.lt_succ_of_le (length_filter_mono p q h l)
    · by_cases hq : q b
      · rw [List.filter_cons_of_pos hq, List.filter_cons_of_pos (h b hq)]
        simpa using ih a ha hpa hqa
      · rw [List.filter_cons_of_neg (by simpa using hq)]
        by_cases hp : p b
        · rw [List.filter_cons_of_pos hp]
          exact Nat.lt_succ_of_lt (ih a ha hpa hqa)
        · rw [List.filter_cons_of_neg (by simpa using hp)]
          exact ih a ha hpa hqa

theorem unvisitedCount_le (db : Database) {visited visited2 : List String}
    (h : visited ⊆ visited2) :
    unvisitedCount db visited2 ≤ unvisitedCount db visited := by
  apply length_filter_mono
  intro x hx
  have hx2 : x ∉ visited2 := by simpa using hx
  have hx3 : x ∉ visited := fun hmem => hx2 (h hmem)
  simpa using hx3

theorem unvisitedCount_lt (db : Database) {rid : String} {visited : List String}
    (hin : rid ∈ linkIds db.links) (hnot : visited.contains rid = false) :
    unvisitedCount db (rid :: visited) < unvisitedCount db visited := by
  apply length_filter_strict
  · intro x hx
    have hx2 : x ∉ rid :: visited := by simpa using hx
    have hx3 : x ∉ visited := fun hmem => hx2 (List.mem_cons_of_mem rid hmem)
    simpa using hx3
  · exact hin
  · simp only [Bool.not_eq_eq_eq_not, Bool.not_false]
    exact hnot
  · simp

theorem unvisitedCount_pos (db : Database) {rid : String} {visited : List String}
    (hin : rid ∈ linkIds db.links) (hnot : visited.contains rid = false) :
    0 < unvisitedCount db visited := by
  have hmem : rid ∈ (linkIds db.links).filter (fun i => !(visited.contains i)) :=
    List.mem_filter.mpr ⟨hin, by simpa using hnot⟩
  exact List.length_pos_of_mem hmem

/-! ## Neighbors and link endpoints -/

theorem linkIds_cons (a : Link) (links : List Link) :
    linkIds (a :: links) = a.parent_id :: a.child_id :: linkIds links := rfl

theorem mem_linkIds_of_mem {links : List Link} {l : Link} (h : l ∈ links) :
    l.parent_id ∈ linkIds links ∧ l.child_id ∈ linkIds links := by
  induction links with
  | nil => simp at h
  | cons a links ih =>
    rcases List.mem_cons.mp h with rfl | h
    · rw [linkIds_cons]
      exact ⟨List.mem_cons_self _ _, List.mem_cons_of_mem _ (List.mem_cons_self _ _)⟩
    · obtain ⟨h1, h2⟩ := ih h
      rw [linkIds_cons]
      exact ⟨List.mem_cons_of_mem _ (List.mem_cons_of_mem _ h1),
             List.mem_cons_of_mem _ (List.mem_cons_of_mem _ h2)⟩

theorem mem_neighbors_linkIds {db : Database} {tid i : String}
    (h : i ∈ db.neighbors tid) : i ∈ linkIds db.links := by
  unfold Database.neighbors at h
  rcases List.mem_append.mp h with h | h
  · obtain ⟨l, hl, rfl⟩ := List.mem_map.mp h
    exact (mem_linkIds_of_mem (List.mem_of_mem_filter hl)).2
  · obtain ⟨l, hl, rfl⟩ := List.mem_map.mp h
    exact (mem_linkIds_of_mem (List.mem_of_mem_filter hl)).1

theorem mem_neighbors_iff_adjacent (db : Database) (x y : String) :
    y ∈ db.neighbors x ↔ adjacent db x y := by
  unfold Database.neighbors adjacent
  constructor
  · intro h
    rcases List.mem_append.mp h with h | h
    · obtain ⟨l, hl, rfl⟩ := List.mem_map.mp h
      have hpar := List.of_mem_filter hl
      simp only [beq_iff_eq] at hpar
      exact ⟨l, List.mem_of_mem_filter hl, Or.inl ⟨hpar, rfl⟩⟩
    · obtain ⟨l, hl, rfl⟩ := List.mem_map.mp h
      have hch := List.of_mem_filter hl
      simp only [beq_iff_eq] at hch
      exact ⟨l, List.mem_of_mem_filter hl, Or.inr ⟨rfl, hch⟩⟩
  · intro ⟨l, hl, hcase⟩
    rcases hcase with ⟨hp, hc⟩ | ⟨hp, hc⟩
    · apply List.mem_append.mpr
      left
      apply List.mem_map.mpr
      exact ⟨l, List.mem_filter.mpr ⟨hl, by simp [hp]⟩, hc⟩
    · apply List.mem_append.mpr
      right
      apply List.mem_map.mpr
      exact ⟨l, List.mem_filter.mpr ⟨hl, by simp [hc]⟩, hp⟩

/-! ## The recursion budget `chainFuel` always suffices -/

theorem dfsAux_no_fuel_exhaustion (db : Database) :
    ∀ (fuel : Nat) (pending : List String) (chain : List Transaction) (visited : List String),
      (∀ i ∈ pending, i ∈ linkIds db.links) →
      unvisitedCount db visited < fuel →
      dfsAux db fuel pending chain visited ≠ none := by
  intro fuel
  induction fuel using Nat.strong_induction_on with
  | _ fuel IHf =>
    intro pending
    induction pending with
    | nil =>
      intro chain visited _ _
      rw [dfsAux_nil]
      simp
    | cons rid rest IHp =>
      intro chain visited hp hf
      by_cases hc : visited.contains rid = true
      · rw [dfsAux_cons_visited hc]
        exact IHp chain visited (fun i hi => hp i (List.mem_cons_of_mem rid hi)) hf
      · have hc2 : visited.contains rid = false := by simpa using hc
        cases hget : getTransaction db rid with
        | error e =>
          rw [dfsAux_cons_error hc2 hget]
          simp
        | ok o =>
          cases o with
          | none =>
            rw [dfsAux_cons_none hc2 hget]
            apply IHp chain (rid :: visited) (fun i hi => hp i (List.mem_cons_of_mem rid hi))
            have hle := unvisitedCount_le db (List.subset_cons_self rid visited)
            omega
          | some tx =>
            have hrid := hp rid (List.mem_cons_self _ _)
            have hlt := unvisitedCount_lt db hrid hc2
            cases fuel with
            | zero => omega
            | succ fuel1 =>
              rw [dfsAux_cons_some_succ hc2 hget]
              cases hinner : dfsAux db fuel1 (db.neighbors rid) (chain ++ [tx])
                  (rid :: visited) with
              | none =>
                exfalso
                exact IHf fuel1 (Nat.lt_succ_self _) (db.neighbors rid) (chain ++ [tx])
                  (rid :: visited) (fun i hi => mem_neighbors_linkIds hi) (by omega) hinner
              | some res =>
                cases res with
                | error e => simp
                | ok cv =>
                  obtain ⟨c1, v1⟩ := cv
                  show dfsAux db (fuel1 + 1) rest c1 v1 ≠ none
                  apply IHp c1 v1 (fun i hi => hp i (List.mem_cons_of_mem rid hi))
                  have hsub := (dfsAux_mono db fuel1 (db.neighbors rid) (chain ++ [tx])
                    (rid :: visited) c1 v1 hinner).1
                  have h1 := unvisitedCount_le db hsub
                  omega

/-- Termination of the traversal: above the `chainFuel` bound the result
does not depend on the budget, so the Python recursion (which carries no
budget) reaches the same value in finitely many steps. -/
theorem dfsAux_fuel_irrelevant (db : Database) :
    ∀ (f1 : Nat) (pending : List String) (chain : List Transaction) (visited : List String),
      ∀ f2 : Nat,
      (∀ i ∈ pending, i ∈ linkIds db.links) →
      unvisitedCount db visited < f1 → unvisitedCount db visited < f2 →
      dfsAux db f1 pending chain visited = dfsAux db f2 pending chain visited := by
  intro f1
  induction f1 using Nat.strong_induction_on with
  | _ f1 IHf =>
    intro pending
    induction pending with
    | nil =>
      intro chain visited f2 _ _ _
      rw [dfsAux_nil, dfsAux_nil]
    | cons rid rest IHp =>
      intro chain visited f2 hp hf1 hf2
      by_cases hc : visited.contains rid = true
      · rw [dfsAux_cons_visited hc, dfsAux_cons_visited hc]
        exact IHp chain visited f2 (fun i hi => hp i (List.mem_cons_of_mem rid hi)) hf1 hf2
      · have hc2 : visited.contains rid = false := by simpa using hc
        cases hget : getTransaction db rid with
        | error e => rw [dfsAux_cons_error hc2 hget, dfsAux_cons_error hc2 hget]
        | ok o =>
          cases o with
          | none =>
            rw [dfsAux_cons_none hc2 hget, dfsAux_cons_none hc2 hget]
            have hle := unvisitedCount_le db (List.subset_cons_self rid visited)
            exact IHp chain (rid :: visited) f2
              (fun i hi => hp i (List.mem_cons_of_mem rid hi)) (by omega) (by omega)
          | some tx =>
            have hrid := hp rid (List.mem_cons_self _ _)
            have hpos := unvisitedCount_pos db hrid hc2
            have hlt := unvisitedCount_lt db hrid hc2
            cases f1 with
            | zero => omega
            | succ f11 =>
              cases f2 with
              | zero => omega
              | succ f21 =>
                rw [dfsAux_cons_some_succ hc2 hget, dfsAux_cons_some_succ hc2 hget]
                have hinner_eq := IHf f11 (Nat.lt_succ_self _) (db.neighbors rid)
                  (chain ++ [tx]) (rid :: visited) f21
                  (fun i hi => mem_neighbors_linkIds hi) (by omega) (by omega)
                rw [← hinner_eq]
                cases hinner : dfsAux db f11 (db.neighbors rid) (chain ++ [tx])
                    (rid :: visited) with
                | none => rfl
                | some res =>
                  cases res with
                  | error e => rfl
                  | ok cv =>
                    obtain ⟨c1, v1⟩ := cv
                    show dfsAux db (f11 + 1) rest c1 v1 = dfsAux db (f21 + 1) rest c1 v1
                    have hsub := (dfsAux_mono db f11 (db.neighbors rid) (chain ++ [tx])
                      (rid :: visited) c1 v1 hinner).1
                    have hle := unvisitedCount_le db hsub
                    exact IHp c1 v1 (f21 + 1)
                      (fun i hi => hp i (List.mem_cons_of_mem rid hi)) (by omega) (by omega)

/-! ## Fetch under a well-formed store -/

theorem getTransaction_wf {db : Database} (hWF : db.WF) (tid : String) :
    getTransaction db tid = Except.ok (fetch db tid) := by
  unfold fetch
  cases hg : getTransaction db tid with
  | ok o => rfl
  | error e =>
    exfalso
    unfold getTransaction at hg
    cases hf : db.transactions.find? (fun r => r.id == tid) with
    | none =>
      rw [hf] at hg
      exact Except.noConfusion hg
    | some row =>
      rw [hf] at hg
      have hg2 : Except.map some (decodeRow row) = Except.error e := hg
      obtain ⟨t, ht⟩ := hWF row (List.mem_of_find?_eq_some hf)
      rw [ht] at hg2
      exact Except.noConfusion hg2

theorem fetch_some_iff {db : Database} {tid : String} {t : Transaction} :
    fetch db tid = some t ↔ getTransaction db tid = Except.ok (some t) := by
  unfold fetch
  cases hg : getTransaction db tid with
  | ok o => simp
  | error e => simp

theorem present_of_fetch {db : Database} {tid : String} {t : Transaction}
    (h : fetch db tid = some t) : present db tid := by
  unfold present
  rw [h]
  rfl

theorem not_present_of_fetch_none {db : Database} {tid : String}
    (h : fetch db tid = none) : ¬ present db tid := by
  unfold present
  rw [h]
  simp

theorem fetch_id {db : Database} {tid : String} {t : Transaction}
    (h : fetch db tid = some t) : t.id = tid := by
  obtain ⟨row, _, _, hid⟩ := getTransaction_ok_some (fetch_some_iff.mp h)
  exact hid

/-- Every id reached through stored records is itself present, except
possibly the start. -/
theorem ReachStored_present {db : Database} {s i : String} (h : ReachStored db s i) :
    i = s ∨ present db i := by
  induction h with
  | refl => exact Or.inl rfl
  | step _ _ _ hpy => exact Or.inr hpy

/-! ## The master invariant of the traversal -/

theorem dfsAux_spec (db : Database) (s : String) :
    ∀ (fuel : Nat) (pending : List String) (chain : List Transaction) (visited : List String)
      (chain2 : List Transaction) (visited2 : List String),
      dfsAux db fuel pending chain visited = some (Except.ok (chain2, visited2)) →
      (∀ i ∈ visited, present db i → ReachStored db s i) →
      (∀ i ∈ pending, ∃ x, ReachStored db s x ∧ present db x ∧ adjacent db x i) →
      (∀ i, (∃ t ∈ chain, t.id = i) ↔ (i ∈ visited ∧ present db i)) →
      (∀ t ∈ chain, fetch db t.id = some t) →
      (chain.map Transaction.id).Nodup →
      ((∀ i ∈ visited2, present db i → ReachStored db s i) ∧
       (∀ i, (∃ t ∈ chain2, t.id = i) ↔ (i ∈ visited2 ∧ present db i)) ∧
       (∀ t ∈ chain2, fetch db t.id = some t) ∧
       (chain2.map Transaction.id).Nodup ∧
       (∀ x ∈ visited2, x ∉ visited → present db x →
          ∀ y, adjacent db x y → y ∈ visited2)) := by
  intro fuel
  induction fuel using Nat.strong_induction_on with
  | _ fuel IHf =>
    intro pending
    induction pending with
    | nil =>
      intro chain visited chain2 visited2 h hvis hpend hcorr hfetch hnodup
      rw [dfsAux_nil] at h
      simp only [Option.some.injEq, Except.ok.injEq, Prod.mk.injEq] at h
      obtain ⟨h1, h2⟩ := h
      subst h1
      subst h2
      exact ⟨hvis, hcorr, hfetch, hnodup, fun x hx hnx _ _ _ => absurd hx hnx⟩
    | cons rid rest IHp =>
      intro chain visited chain2 visited2 h hvis hpend hcorr hfetch hnodup
      by_cases hc : visited.contains rid = true
      · rw [dfsAux_cons_visited hc] at h
        exact IHp chain visited chain2 visited2 h hvis
          (fun i hi => hpend i (List.mem_cons_of_mem rid hi)) hcorr hfetch hnodup
      · have hc2 : visited.contains rid = false := by simpa using hc
        have hridmem : rid ∉ visited := by simpa using hc2
        cases hget : getTransaction db rid with
        | error e =>
          rw [dfsAux_cons_error hc2 hget] at h
          exact Except.noConfusion (Option.some.inj h)
        | ok o =>
          cases o with
          | none =>
            rw [dfsAux_cons_none hc2 hget] at h
            have hfet : fetch db rid = none := by
              unfold fetch
              rw [hget]
            have hnp : ¬ present db rid := not_present_of_fetch_none hfet
            have hvis1 : ∀ i ∈ rid :: visited, present db i → ReachStored db s i := by
              intro i hi hpres
              rcases List.mem_cons.mp hi with rfl | hi
              · exact absurd hpres hnp
              · exact hvis i hi hpres
            have hcorr1 : ∀ i, (∃ t ∈ chain, t.id = i)
                ↔ (i ∈ rid :: visited ∧ present db i) := by
              intro i
              constructor
              · intro hex
                obtain ⟨hiv, hip⟩ := (hcorr i).mp hex
                exact ⟨List.mem_cons_of_mem rid hiv, hip⟩
              · intro ⟨hiv, hip⟩
                rcases List.mem_cons.mp hiv with rfl | hiv
                · exact absurd hip hnp
                · exact (hcorr i).mpr ⟨hiv, hip⟩
            obtain ⟨hv2, hco2, hfe2, hnd2, hcl2⟩ := IHp chain (rid :: visited)
              chain2 visited2 h hvis1
              (fun i hi => hpend i (List.mem_cons_of_mem rid hi)) hcorr1 hfetch hnodup
            refine ⟨hv2, hco2, hfe2, hnd2, ?_⟩
            intro x hx hnx hpx y hadj
            have hnx1 : x ∉ rid :: visited := by
              intro hmem
              rcases List.mem_cons.mp hmem with rfl | hmem
              · exact hnp hpx
              · exact hnx hmem
            exact hcl2 x hx hnx1 hpx y hadj
          | some parent =>
            cases fuel with
            | zero =>
              rw [dfsAux_cons_some_zero hc2 hget] at h
              exact Option.noConfusion h
            | succ fuel1 =>
              rw [dfsAux_cons_some_succ hc2 hget] at h
              cases hinner : dfsAux db fuel1 (db.neighbors rid) (chain ++ [parent])
                  (rid :: visited) with
              | none =>
                rw [hinner] at h
                exact Option.noConfusion h
              | some res =>
                cases res with
                | error e =>
                  rw [hinner] at h
                  exact Except.noConfusion (Option.some.inj h)
                | ok cv =>
                  obtain ⟨chain1, visited1⟩ := cv
                  rw [hinner] at h
                  have h2 : dfsAux db (fuel1 + 1) rest chain1 visited1
                      = some (Except.ok (chain2, visited2)) := h
                  have hfet : fetch db rid = some parent := fetch_some_iff.mpr hget
                  have hpres : present db rid := present_of_fetch hfet
                  have hpid : parent.id = rid := fetch_id hfet
                  have hreach : ReachStored db s rid := by
                    obtain ⟨x, hrx, hpx, hax⟩ := hpend rid (List.mem_cons_self _ _)
                    exact ReachStored.step hrx hpx hax hpres
                  have hvis1 : ∀ i ∈ rid :: visited, present db i → ReachStored db s i := by
                    intro i hi hp
                    rcases List.mem_cons.mp hi with rfl | hi
                    · exact hreach
                    · exact hvis i hi hp
                  have hpend1 : ∀ i ∈ db.neighbors rid,
                      ∃ x, ReachStored db s x ∧ present db x ∧ adjacent db x i := by
                    intro i hi
                    exact ⟨rid, hreach, hpres, (mem_neighbors_iff_adjacent db rid i).mp hi⟩
                  have hcorr1 : ∀ i, (∃ t ∈ chain ++ [parent], t.id = i)
                      ↔ (i ∈ rid :: visited ∧ present db i) := by
                    intro i
                    constructor
                    · intro ⟨t, ht, hti⟩
                      rcases List.mem_append.mp ht with ht | ht
                      · obtain ⟨hiv, hip⟩ := (hcorr i).mp ⟨t, ht, hti⟩
                        exact ⟨List.mem_cons_of_mem rid hiv, hip⟩
                      · have hteq : t = parent := by simpa using ht
                        subst hteq
                        have hieq : i = rid := by rw [← hti, hpid]
                        subst hieq
                        exact ⟨List.mem_cons_self _ _, hpres⟩
                    · intro ⟨hiv, hip⟩
                      rcases List.mem_cons.mp hiv with rfl | hiv
                      · exact ⟨parent,
                          List.mem_append.mpr (Or.inr (List.mem_singleton.mpr rfl)), hpid⟩
                      · obtain ⟨t, ht, hti⟩ := (hcorr i).mpr ⟨hiv, hip⟩
                        exact ⟨t, List.mem_append.mpr (Or.inl ht), hti⟩
                  have hfetch1 : ∀ t ∈ chain ++ [parent], fetch db t.id = some t := by
                    intro t ht
                    rcases List.mem_append.mp ht with ht | ht
                    · exact hfetch t ht
                    · have hteq : t = parent := by simpa using ht
                      subst hteq
                      rw [hpid]
                      exact hfet
                  have hnodup1 : ((chain ++ [parent]).map Transaction.id).Nodup := by
                    rw [List.map_append]
                    rw [List.nodup_append]
                    refine ⟨hnodup, by simp, ?_⟩
                    intro a ha hb
                    have hmem : a = parent.id := by simpa using hb
                    subst hmem
                    obtain ⟨t, ht, hti⟩ := List.mem_map.mp ha
                    have hv := (hcorr parent.id).mp ⟨t, ht, hti⟩
                    rw [hpid] at hv
                    exact hridmem hv.1
                  obtain ⟨hv1, hco1, hfe1, hnd1, hcl1⟩ :=
                    IHf fuel1 (Nat.lt_succ_self _) (db.neighbors rid) (chain ++ [parent])
                      (rid :: visited) chain1 visited1 hinner hvis1 hpend1 hcorr1
                      hfetch1 hnodup1
                  obtain ⟨hv2, hco2, hfe2, hnd2, hcl2⟩ := IHp chain1 visited1
                    chain2 visited2 h2 hv1
                    (fun i hi => hpend i (List.mem_cons_of_mem rid hi)) hco1 hfe1 hnd1
                  refine ⟨hv2, hco2, hfe2, hnd2, ?_⟩
                  intro x hx hnx hpx y hadj
                  have hmono_inner := dfsAux_mono db fuel1 (db.neighbors rid)
                    (chain ++ [parent]) (rid :: visited) chain1 visited1 hinner
                  have hmono_sib := dfsAux_mono db (fuel1 + 1) rest chain1 visited1
                    chain2 visited2 h2
                  by_cases hx1 : x ∈ visited1
                  · by_cases hxr : x = rid
                    · subst hxr
                      have hyn : y ∈ db.neighbors x :=
                        (mem_neighbors_iff_adjacent db x y).mpr hadj
                      exact hmono_sib.1 (hmono_inner.2 hyn)
                    · have hnx1 : x ∉ rid :: visited := by
                        intro hmem
                        rcases List.mem_cons.mp hmem with hmm | hmm
                        · exact hxr hmm
                        · exact hnx hmm
                      exact hmono_sib.1 (hcl1 x hx1 hnx1 hpx y hadj)
                  · exact hcl2 x hx hx1 hpx y hadj

/-- Under a well-formed store the traversal never raises. -/
theorem dfsAux_no_error (db : Database) (hWF : db.WF) :
    ∀ (fuel : Nat) (pending : List String) (chain : List Transaction) (visited : List String)
      (e : String),
      dfsAux db fuel pending chain visited ≠ some (Except.error e) := by
  intro fuel
  induction fuel using Nat.strong_induction_on with
  | _ fuel IHf =>
    intro pending
    induction pending with
    | nil =>
      intro chain visited e
      rw [dfsAux_nil]
      simp
    | cons rid rest IHp =>
      intro chain visited e
      by_cases hc : visited.contains rid = true
      · rw [dfsAux_cons_visited hc]
        exact IHp chain visited e
      · have hc2 : visited.contains rid = false := by simpa using hc
        cases hget : getTransaction db rid with
        | error e0 =>
          rw [getTransaction_wf hWF rid] at hget
          exact absurd hget (by simp)
        | ok o =>
          cases o with
          | none =>
            rw [dfsAux_cons_none hc2 hget]
            exact IHp chain (rid :: visited) e
          | some tx =>
            cases fuel with
            | zero =>
              rw [dfsAux_cons_some_zero hc2 hget]
              simp
            | succ fuel1 =>
              rw [dfsAux_cons_some_succ hc2 hget]
              cases hinner : dfsAux db fuel1 (db.neighbors rid) (chain ++ [tx])
                  (rid :: visited) with
              | none => simp
              | some res =>
                cases res with
                | error e0 =>
                  exact absurd hinner (IHf fuel1 (Nat.lt_succ_self _) (db.neighbors rid)
                    (chain ++ [tx]) (rid :: visited) e0)
                | ok cv =>
                  obtain ⟨c1, v1⟩ := cv
                  show dfsAux db (fuel1 + 1) rest c1 v1 ≠ some (Except.error e)
                  exact IHp c1 v1 e

/-- The chronological comparator is total and transitive. -/
theorem chronoLe_total (a b : Transaction) : chronoLe a b = true ∨ chronoLe b a = true := by
  unfold chronoLe
  rcases Nat.le_total a.timestamp b.timestamp with h | h
  · left; simpa using h
  · right; simpa using h

theorem chronoLe_trans (a b c : Transaction)
    (h1 : chronoLe a b = true) (h2 : chronoLe b c = true) : chronoLe a c = true := by
  unfold chronoLe at h1 h2 ⊢
  simp only [decide_eq_true_eq] at h1 h2 ⊢
  omega

/-- The full behaviour of `get_transaction_chain` on a well-formed store
when the start id has a record: it succeeds, and the returned sequence is
chronologically sorted, duplicate-free by id, made of the records the
store holds, and its ids are exactly those reachable from the start
through stored records. -/
theorem chain_master (db : Database) (hWF : db.WF) (s : String) (tx0 : Transaction)
    (h0 : fetch db s = some tx0) :
    ∃ l, getTransactionChain db s = Except.ok l ∧
      l.Pairwise (fun a b => a.timestamp ≤ b.timestamp) ∧
      (l.map Transaction.id).Nodup ∧
      (∀ i, (∃ t ∈ l, t.id = i) ↔ ReachStored db s i) ∧
      (∀ t ∈ l, fetch db t.id = some t) := by
  have hget : getTransaction db s = Except.ok (some tx0) := fetch_some_iff.mp h0
  have hpends : ∀ i ∈ db.neighbors s, i ∈ linkIds db.links :=
    fun i hi => mem_neighbors_linkIds hi
  have hcount : unvisitedCount db [s] < chainFuel db := by
    unfold chainFuel
    have := List.length_filter_le (fun i => !(([s] : List String).contains i))
      (linkIds db.links)
    unfold unvisitedCount
    omega
  cases hdfs : dfsAux db (chainFuel db) (db.neighbors s) [tx0] [s] with
  | none =>
    exact absurd hdfs (dfsAux_no_fuel_exhaustion db (chainFuel db) _ _ _ hpends hcount)
  | some res =>
    cases res with
    | error e => exact absurd hdfs (dfsAux_no_error db hWF _ _ _ _ e)
    | ok cv =>
      obtain ⟨c, v⟩ := cv
      have hpress : present db s := present_of_fetch h0
      have htx0id : tx0.id = s := fetch_id h0
      have hspec := dfsAux_spec db s (chainFuel db) (db.neighbors s) [tx0] [s] c v hdfs
        (by
          intro i hi hp
          have : i = s := by simpa using hi
          subst this
          exact ReachStored.refl)
        (by
          intro i hi
          exact ⟨s, ReachStored.refl, hpress, (mem_neighbors_iff_adjacent db s i).mp hi⟩)
        (by
          intro i
          constructor
          · intro ⟨t, ht, hti⟩
            have : t = tx0 := by simpa using ht
            subst this
            rw [← hti, htx0id]
            exact ⟨List.mem_cons_self _ _, htx0id ▸ hpress⟩
          · intro ⟨hiv, _⟩
            have : i = s := by simpa using hiv
            subst this
            exact ⟨tx0, List.mem_singleton.mpr rfl, htx0id⟩)
        (by
          intro t ht
          have : t = tx0 := by simpa using ht
          subst this
          rw [htx0id]
          exact h0)
        (by simp)
      obtain ⟨hv2, hco2, hfe2, hnd2, hcl2⟩ := hspec
      have hmono := dfsAux_mono db (chainFuel db) (db.neighbors s) [tx0] [s] c v hdfs
      have hsv : s ∈ v := hmono.1 (List.mem_singleton.mpr rfl)
      have hcomplete : ∀ i, ReachStored db s i → i ∈ v := by
        intro i hr
        induction hr with
        | refl => exact hsv
        | @step x y hrx hpx hadj hpy ih =>
          by_cases hxs : x = s
          · subst hxs
            exact hmono.2 ((mem_neighbors_iff_adjacent db x y).mpr hadj)
          · have hnx : x ∉ ([s] : List String) := by simpa using hxs
            exact hcl2 x ih hnx hpx y hadj
      refine ⟨listSort chronoLe c, ?_, ?_, ?_, ?_, ?_⟩
      · unfold getTransactionChain getTransactionChainF
        rw [hget]
        show (match dfsAux db (chainFuel db) (db.neighbors s) [tx0] [s] with
          | none => Except.error "recursion depth exceeded"
          | some (.error e) => Except.error e
          | some (.ok (chain, _)) => Except.ok (listSort chronoLe chain))
          = Except.ok (listSort chronoLe c)
        rw [hdfs]
      · have := listSort_pairwise chronoLe_total chronoLe_trans c
        exact this.imp (fun h => by simpa [chronoLe] using h)
      · have hperm : (listSort chronoLe c).map Transaction.id |>.Perm
            (c.map Transaction.id) := (listSort_perm chronoLe c).map _
        exact hperm.nodup_iff.mpr hnd2
      · intro i
        rw [show (∃ t ∈ listSort chronoLe c, t.id = i) ↔ (∃ t ∈ c, t.id = i) by
          constructor
          · intro ⟨t, ht, hti⟩
            exact ⟨t, (listSort_perm chronoLe c).mem_iff.mp ht, hti⟩
          · intro ⟨t, ht, hti⟩
            exact ⟨t, (listSort_perm chronoLe c).mem_iff.mpr ht, hti⟩]
        rw [hco2 i]
        constructor
        · intro ⟨hiv, hip⟩
          exact hv2 i hiv hip
        · intro hr
          refine ⟨hcomplete i hr, ?_⟩
          rcases ReachStored_present hr with rfl | hp
          · exact hpress
          · exact hp
      · intro t ht
        exact hfe2 t ((listSort_perm chronoLe c).mem_iff.mp ht)

/-! ## C1: chain reachability -/

/-- C1 counterexample: in `danglingDb` the links A→X, X→B make B
reachable from A over the `transaction_links` table (undirected), and B
has a stored record, yet `chain("A")` returns only A — the traversal
never crosses the dangling id X, so reachability is not plain
link-reachability as the claim states. -/
theorem chain_misses_stored_via_dangling :
    getTransactionChain danglingDb "A" = Except.ok [txA] ∧
    ReachLink danglingDb "A" "B" ∧
    present danglingDb "B" ∧
    ∀ t ∈ [txA], t.id ≠ "B" := by
  refine ⟨by decide, ?_, by decide, by decide⟩
  have h1 : adjacent danglingDb "A" "X" :=
    ⟨{ parent_id := "A", child_id := "X", relationship_type := "t" }, by decide,
     Or.inl ⟨rfl, rfl⟩⟩
  have h2 : adjacent danglingDb "X" "B" :=
    ⟨{ parent_id := "X", child_id := "B", relationship_type := "t" }, by decide,
     Or.inl ⟨rfl, rfl⟩⟩
  exact Relation.ReflTransGen.tail (Relation.ReflTransGen.single h1) h2

/-- C1 (amended): on a well-formed store, when the start id has a stored
record, `get_transaction_chain` returns exactly the records of the ids
reachable from the start along link edges in either direction **through
stored records** (every node on the walk has a record), each exactly
once, sorted by timestamp ascending; with no links this is the singleton
of the start record. -/
theorem chain_reachability_sorted (db : Database) (hWF : db.WF) (s : String)
    (tx0 : Transaction) (h0 : fetch db s = some tx0) :
    ∃ l, getTransactionChain db s = Except.ok l ∧
      l.Pairwise (fun a b => a.timestamp ≤ b.timestamp) ∧
      (l.map Transaction.id).Nodup ∧
      (∀ i, (∃ t ∈ l, t.id = i) ↔ ReachStored db s i) ∧
      (∀ t ∈ l, fetch db t.id = some t) :=
  chain_master db hWF s tx0 h0

/-- Witness for the amended C1 on the two-cycle store. -/
theorem chain_reachability_sorted_witness :
    cycleDb.WF ∧ fetch cycleDb "A" = some txA ∧
    (∃ l, getTransactionChain cycleDb "A" = Except.ok l ∧
      l.Pairwise (fun a b => a.timestamp ≤ b.timestamp) ∧
      (l.map Transaction.id).Nodup ∧
      (∀ i, (∃ t ∈ l, t.id = i) ↔ ReachStored cycleDb "A" i) ∧
      (∀ t ∈ l, fetch cycleDb t.id = some t)) :=
  ⟨by decide, by decide, chain_reachability_sorted cycleDb (by decide) "A" txA (by decide)⟩

/-! ## C5: termination and cycle safety -/

/-- C5: the recursion is bounded — above the `chainFuel` budget the
traversal's value no longer depends on the budget, so the unbounded
Python recursion terminates with that value on every store, cyclic link
graphs included; on the concrete two-cycle A↔B the chain is exactly
{A, B} once each, in timestamp order. -/
theorem chain_terminates_cycle_safe (db : Database) (s : String) (fuel : Nat)
    (hfuel : chainFuel db ≤ fuel) :
    getTransactionChainF db s fuel = getTransactionChain db s ∧
    getTransactionChain cycleDb "A" = Except.ok [txA, txB] := by
  constructor
  · have hpends : ∀ i ∈ db.neighbors s, i ∈ linkIds db.links :=
      fun i hi => mem_neighbors_linkIds hi
    have hcount : unvisitedCount db [s] < chainFuel db := by
      unfold chainFuel unvisitedCount
      have := List.length_filter_le (fun i => !(([s] : List String).contains i))
        (linkIds db.links)
      omega
    unfold getTransactionChain getTransactionChainF
    cases hg : getTransaction db s with
    | error e => rfl
    | ok o =>
      cases o with
      | none => rfl
      | some tx0 =>
        show (match dfsAux db fuel (db.neighbors s) [tx0] [s] with
            | none => Except.error "recursion depth exceeded"
            | some (.error e) => Except.error e
            | some (.ok (chain, _)) => Except.ok (listSort chronoLe chain))
          = (match dfsAux db (chainFuel db) (db.neighbors s) [tx0] [s] with
            | none => Except.error "recursion depth exceeded"
            | some (.error e) => Except.error e
            | some (.ok (chain, _)) => Except.ok (listSort chronoLe chain))
        rw [dfsAux_fuel_irrelevant db fuel (db.neighbors s) [tx0] [s] (chainFuel db)
          hpends (by omega) hcount]
  · decide

/-- Witness for C5 on the two-cycle store with a budget above the bound. -/
theorem chain_terminates_cycle_safe_witness :
    chainFuel cycleDb ≤ 10 ∧
    (getTransactionChainF cycleDb "A" 10 = getTransactionChain cycleDb "A" ∧
     getTransactionChain cycleDb "A" = Except.ok [txA, txB]) :=
  ⟨by decide, chain_terminates_cycle_safe cycleDb "A" 10 (by decide)⟩

/-! ## C6: dangling edges are skipped silently -/

/-- C6: on a well-formed store the chain never raises, every returned
record is one the store actually holds, and an id with no record (a
dangling link endpoint) contributes no element to the result. -/
theorem chain_skips_dangling (db : Database) (hWF : db.WF) (s : String) :
    ∃ l, getTransactionChain db s = Except.ok l ∧
      (∀ t ∈ l, fetch db t.id = some t) ∧
      (∀ i, fetch db i = none → ∀ t ∈ l, t.id ≠ i) := by
  cases h0 : fetch db s with
  | none =>
    refine ⟨[], ?_, by simp, by simp⟩
    unfold getTransactionChain getTransactionChainF
    rw [getTransaction_wf hWF s, h0]
  | some tx0 =>
    obtain ⟨l, hl, _, _, _, hfe⟩ := chain_master db hWF s tx0 h0
    refine ⟨l, hl, hfe, ?_⟩
    intro i hnone t ht hti
    have hft := hfe t ht
    rw [hti, hnone] at hft
    exact Option.noConfusion hft

/-- Witness for C6 on the store with dangling links A→X, X→B. -/
theorem chain_skips_dangling_witness :
    danglingDb.WF ∧
    ∃ l, getTransactionChain danglingDb "A" = Except.ok l ∧
      (∀ t ∈ l, fetch danglingDb t.id = some t) ∧
      (∀ i, fetch danglingDb i = none → ∀ t ∈ l, t.id ≠ i) :=
  ⟨by decide, chain_skips_dangling danglingDb (by decide) "A"⟩

/-! ## C8: listing all transactions, most recent first -/

theorem fromisoformat_elim {s : String} {n : Nat} (h : fromisoformat s = some n) :
    s.data.length = 20 ∧ (∀ c ∈ s.data, isDigitChar c = true) ∧ valOf s.data = n := by
  unfold fromisoformat at h
  split at h
  · next hcond =>
    simp only [Bool.and_eq_true, decide_eq_true_eq, List.all_eq_true] at hcond
    exact ⟨hcond.1, hcond.2, Option.some.inj h⟩
  · exact absurd h (by simp)

theorem decodeRows_ok : ∀ (rows : List Row),
    (∀ r ∈ rows, ∃ t, decodeRow r = Except.ok t) →
    ∃ ts, decodeRows rows = Except.ok ts ∧
      List.Forall₂ (fun r t => decodeRow r = Except.ok t) rows ts := by
  intro rows
  induction rows with
  | nil => exact fun _ => ⟨[], rfl, List.Forall₂.nil⟩
  | cons r rows ih =>
    intro h
    obtain ⟨t, htok⟩ := h r (List.mem_cons_self _ _)
    obtain ⟨ts, hts, hf⟩ := ih (fun x hx => h x (List.mem_cons_of_mem r hx))
    refine ⟨t :: ts, ?_, List.Forall₂.cons htok hf⟩
    unfold decodeRows
    rw [htok, hts]

theorem decodeRows_filterMap : ∀ (rows : List Row) (ts : List Transaction),
    decodeRows rows = Except.ok ts →
    rows.filterMap (fun r => (decodeRow r).toOption) = ts := by
  intro rows
  induction rows with
  | nil =>
    intro ts h
    unfold decodeRows at h
    simpa using (Except.ok.inj h).symm
  | cons r rows ih =>
    intro ts h
    unfold decodeRows at h
    cases hd : decodeRow r with
    | error e =>
      rw [hd] at h
      exact Except.noConfusion h
    | ok t =>
      rw [hd] at h
      cases hds : decodeRows rows with
      | error e =>
        rw [hds] at h
        exact Except.noConfusion h
      | ok ts0 =>
        rw [hds] at h
        have hts : t :: ts0 = ts := Except.ok.inj h
        rw [List.filterMap_cons]
        have hsome : (decodeRow r).toOption = some t := by
          rw [hd]
          rfl
        simp only [hsome]
        rw [ih ts0 hds]
        exact hts

theorem forall₂_mem_right {α β : Type} {R : α → β → Prop} :
    ∀ {l : List α} {m : List β}, List.Forall₂ R l m → ∀ y ∈ m, ∃ x ∈ l, R x y := by
  intro l m hf
  induction hf with
  | nil => intro y hy; simp at hy
  | cons hr hrest ih =>
    intro y hy
    rcases List.mem_cons.mp hy with rfl | hy
    · exact ⟨_, List.mem_cons_self _ _, hr⟩
    · obtain ⟨x, hx, hrx⟩ := ih y hy
      exact ⟨x, List.mem_cons_of_mem _ hx, hrx⟩

theorem forall₂_pairwise_transfer {α β : Type} {R : α → β → Prop} {P : α → α → Prop}
    {Q : β → β → Prop} (hPQ : ∀ a b x y, R a x → R b y → P a b → Q x y) :
    ∀ {l : List α} {m : List β}, List.Forall₂ R l m → l.Pairwise P → m.Pairwise Q := by
  intro l m hf
  induction hf with
  | nil => intro _; exact List.Pairwise.nil
  | @cons a x l0 m0 hr hrest ih =>
    intro hp
    obtain ⟨hhead, htail⟩ := List.pairwise_cons.mp hp
    refine List.pairwise_cons.mpr ⟨?_, ih htail⟩
    intro y hy
    obtain ⟨b, hb, hrb⟩ := forall₂_mem_right hrest y hy
    exact hPQ a b x y hr hrb (hhead b hb)

theorem rowDescLe_total (a b : Row) : rowDescLe a b = true ∨ rowDescLe b a = true := by
  unfold rowDescLe
  by_cases h : lexLt a.timestamp.data b.timestamp.data = true
  · right
    rw [lexLt_asymm _ _ h]
    rfl
  · left
    simp only [Bool.not_eq_true] at h
    rw [h]
    rfl

theorem rowDescLe_trans (a b c : Row) (h1 : rowDescLe a b = true) (h2 : rowDescLe b c = true) :
    rowDescLe a c = true := by
  unfold rowDescLe at h1 h2 ⊢
  simp only [Bool.not_eq_eq_eq_not, Bool.not_true] at h1 h2 ⊢
  exact lexLt_false_trans c.timestamp.data b.timestamp.data a.timestamp.data h2 h1

/-- C8: on a well-formed store, `get_all_transactions` returns all stored
transactions (the decode of every row, as a permutation) ordered by
timestamp descending — most recent first. -/
theorem getAll_sorted_desc (db : Database) (hWF : db.WF) :
    ∃ ts, getAllTransactions db = Except.ok ts ∧
      ts.Pairwise (fun a b => b.timestamp ≤ a.timestamp) ∧
      ts.Perm (db.transactions.filterMap (fun r => (decodeRow r).toOption)) := by
  have hperm := listSort_perm rowDescLe db.transactions
  have hall : ∀ r ∈ listSort rowDescLe db.transactions, ∃ t, decodeRow r = Except.ok t :=
    fun r hr => hWF r (hperm.mem_iff.mp hr)
  obtain ⟨ts, hts, hf⟩ := decodeRows_ok _ hall
  refine ⟨ts, hts, ?_, ?_⟩
  · have hsorted := listSort_pairwise rowDescLe_total rowDescLe_trans db.transactions
    refine forall₂_pairwise_transfer ?_ hf hsorted
    intro r1 r2 t1 t2 hr1 hr2 hle
    have he1 := fromisoformat_elim (decodeRow_timestamp hr1)
    have he2 := fromisoformat_elim (decodeRow_timestamp hr2)
    unfold rowDescLe at hle
    simp only [Bool.not_eq_eq_eq_not, Bool.not_true] at hle
    have hiff := lexLt_iff_valOf r1.timestamp.data r2.timestamp.data
      (he1.1.trans he2.1.symm) he1.2.1 he2.2.1
    rw [he1.2.2, he2.2.2] at hiff
    have : ¬ (t1.timestamp < t2.timestamp) := by
      intro hlt
      rw [hle] at hiff
      exact (by simpa using hiff.mpr hlt)
    omega
  · rw [← decodeRows_filterMap _ ts hts]
    exact hperm.filterMap (fun r => (decodeRow r).toOption)

/-- Witness for C8 on the three-row store (timestamps 1, 3, 2). -/
theorem getAll_sorted_desc_witness :
    storeABC.WF ∧
    ∃ ts, getAllTransactions storeABC = Except.ok ts ∧
      ts.Pairwise (fun a b => b.timestamp ≤ a.timestamp) ∧
      ts.Perm (storeABC.transactions.filterMap (fun r => (decodeRow r).toOption)) :=
  ⟨by decide, getAll_sorted_desc storeABC (by decide)⟩

/-! ## C10: traversal does not read the cached `related_transactions` view -/

theorem find?_scrub_congr (p : String) :
    ∀ (l1 l2 : List Row), l1.map scrubRow = l2.map scrubRow →
      Option.map scrubRow (l1.find? (fun r => r.id == p))
        = Option.map scrubRow (l2.find? (fun r => r.id == p)) := by
  intro l1
  induction l1 with
  | nil =>
    intro l2 h
    cases l2 with
    | nil => rfl
    | cons r2 l2 => simp at h
  | cons r1 l1 ih =>
    intro l2 h
    cases l2 with
    | nil => simp at h
    | cons r2 l2 =>
      simp only [List.map_cons, List.cons.injEq] at h
      obtain ⟨hr, hl⟩ := h
      have hid : r1.id = r2.id :=
        (congrArg Row.id hr : (scrubRow r1).id = (scrubRow r2).id)
      by_cases hp : r1.id = p
      · rw [List.find?_cons_of_pos _ (by simpa using hp),
          List.find?_cons_of_pos _ (by simpa using hid ▸ hp)]
        simp [hr]
      · rw [List.find?_cons_of_neg _ (by simpa using hp),
          List.find?_cons_of_neg _ (by simpa using hid ▸ hp)]
        exact ih l2 hl

theorem decodeRow_scrub_congr {r1 r2 : Row} (h : scrubRow r1 = scrubRow r2)
    {t1 t2 : Transaction} (hd1 : decodeRow r1 = Except.ok t1)
    (hd2 : decodeRow r2 = Except.ok t2) : scrub t1 = scrub t2 := by
  obtain ⟨hraw1, hrel1, hts1, hty1, hsrc1, hid1, ham1, hcur1, hfee1, hfc1, hst1, hn1⟩ :=
    decodeRow_ok_elim hd1
  obtain ⟨hraw2, hrel2, hts2, hty2, hsrc2, hid2, ham2, hcur2, hfee2, hfc2, hst2, hn2⟩ :=
    decodeRow_ok_elim hd2
  have hid : r1.id = r2.id :=
    (congrArg Row.id h : (scrubRow r1).id = (scrubRow r2).id)
  have hts : r1.timestamp = r2.timestamp :=
    (congrArg Row.timestamp h : (scrubRow r1).timestamp = (scrubRow r2).timestamp)
  have hty : r1.transaction_type = r2.transaction_type :=
    (congrArg Row.transaction_type h : (scrubRow r1).transaction_type = (scrubRow r2).transaction_type)
  have hsrc : r1.source = r2.source :=
    (congrArg Row.source h : (scrubRow r1).source = (scrubRow r2).source)
  have ham : r1.amount = r2.amount :=
    (congrArg Row.amount h : (scrubRow r1).amount = (scrubRow r2).amount)
  have hcur : r1.currency = r2.currency :=
    (congrArg Row.currency h : (scrubRow r1).currency = (scrubRow r2).currency)
  have hfee : r1.fee = r2.fee :=
    (congrArg Row.fee h : (scrubRow r1).fee = (scrubRow r2).fee)
  have hfc : r1.fee_currency = r2.fee_currency :=
    (congrArg Row.fee_currency h : (scrubRow r1).fee_currency = (scrubRow r2).fee_currency)
  have hst : r1.status = r2.status :=
    (congrArg Row.status h : (scrubRow r1).status = (scrubRow r2).status)
  have hn : r1.notes = r2.notes :=
    (congrArg Row.notes h : (scrubRow r1).notes = (scrubRow r2).notes)
  have hraw : r1.raw_data = r2.raw_data :=
    (congrArg Row.raw_data h : (scrubRow r1).raw_data = (scrubRow r2).raw_data)
  rw [hts] at hts1
  rw [hty] at hty1
  rw [hsrc] at hsrc1
  rw [hraw] at hraw1
  simp only [scrub, Transaction.mk.injEq]
  exact ⟨hid1.trans (hid.trans hid2.symm),
    Option.some.inj (hts1.symm.trans hts2),
    Option.some.inj (hty1.symm.trans hty2),
    Option.some.inj (hsrc1.symm.trans hsrc2),
    ham1.trans (ham.trans ham2.symm),
    hcur1.trans (hcur.trans hcur2.symm),
    hfee1.trans (hfee.trans hfee2.symm),
    hfc1.trans (hfc.trans hfc2.symm),
    hst1.trans (hst.trans hst2.symm),
    hn1.trans (hn.trans hn2.symm),
    Option.some.inj (hraw1.symm.trans hraw2), trivial⟩

theorem fetch_eq (db : Database) (i : String) :
    fetch db i = (match db.transactions.find? (fun r => r.id == i) with
      | none => none
      | some r => (decodeRow r).toOption) := by
  unfold fetch getTransaction
  cases hf : db.transactions.find? (fun r => r.id == i) with
  | none => rfl
  | some r =>
    show (match Except.map some (decodeRow r) with
      | Except.ok o => o
      | Except.error _ => none) = (decodeRow r).toOption
    cases decodeRow r <;> rfl

theorem fetch_scrub_congr {db1 db2 : Database} (hWF1 : db1.WF) (hWF2 : db2.WF)
    (ht : db1.transactions.map scrubRow = db2.transactions.map scrubRow) (i : String) :
    Option.map scrub (fetch db1 i) = Option.map scrub (fetch db2 i) := by
  have hfind := find?_scrub_congr i db1.transactions db2.transactions ht
  rw [fetch_eq, fetch_eq]
  cases hf1 : db1.transactions.find? (fun r => r.id == i) with
  | none =>
    cases hf2 : db2.transactions.find? (fun r => r.id == i) with
    | none => rfl
    | some r2 =>
      rw [hf1, hf2] at hfind
      exact absurd hfind (by simp)
  | some r1 =>
    cases hf2 : db2.transactions.find? (fun r => r.id == i) with
    | none =>
      rw [hf1, hf2] at hfind
      exact absurd hfind (by simp)
    | some r2 =>
      rw [hf1, hf2] at hfind
      have hrr : scrubRow r1 = scrubRow r2 := by simpa using hfind
      obtain ⟨t1, ht1⟩ := hWF1 r1 (List.mem_of_find?_eq_some hf1)
      obtain ⟨t2, ht2⟩ := hWF2 r2 (List.mem_of_find?_eq_some hf2)
      show Option.map scrub (decodeRow r1).toOption
        = Option.map scrub (decodeRow r2).toOption
      rw [ht1, ht2]
      show some (scrub t1) = some (scrub t2)
      rw [decodeRow_scrub_congr hrr ht1 ht2]

theorem neighbors_links_congr {db1 db2 : Database} (h : db1.links = db2.links)
    (t : String) : db1.neighbors t = db2.neighbors t := by
  unfold Database.neighbors
  rw [h]

theorem option_scrub_cases {o1 o2 : Option Transaction}
    (h : Option.map scrub o1 = Option.map scrub o2) :
    (o1 = none ∧ o2 = none) ∨
    (∃ t1 t2, o1 = some t1 ∧ o2 = some t2 ∧ scrub t1 = scrub t2) := by
  cases o1 with
  | none =>
    cases o2 with
    | none => exact Or.inl ⟨rfl, rfl⟩
    | some t2 => simp at h
  | some t1 =>
    cases o2 with
    | none => simp at h
    | some t2 => exact Or.inr ⟨t1, t2, rfl, rfl, by simpa using h⟩

theorem dfsAux_scrub_congr (db1 db2 : Database) (hWF1 : db1.WF) (hWF2 : db2.WF)
    (hl : db1.links = db2.links)
    (ht : db1.transactions.map scrubRow = db2.transactions.map scrubRow) :
    ∀ (fuel : Nat) (pending : List String) (chain1 chain2 : List Transaction)
      (visited : List String),
      chain1.map scrub = chain2.map scrub →
      ((dfsAux db1 fuel pending chain1 visited = none ∧
        dfsAux db2 fuel pending chain2 visited = none) ∨
       (∃ c1 c2 v, dfsAux db1 fuel pending chain1 visited = some (Except.ok (c1, v)) ∧
          dfsAux db2 fuel pending chain2 visited = some (Except.ok (c2, v)) ∧
          c1.map scrub = c2.map scrub)) := by
  intro fuel
  induction fuel using Nat.strong_induction_on with
  | _ fuel IHf =>
    intro pending
    induction pending with
    | nil =>
      intro chain1 chain2 visited hc
      rw [dfsAux_nil, dfsAux_nil]
      exact Or.inr ⟨chain1, chain2, visited, rfl, rfl, hc⟩
    | cons rid rest IHp =>
      intro chain1 chain2 visited hc
      by_cases hcv : visited.contains rid = true
      · rw [dfsAux_cons_visited hcv, dfsAux_cons_visited hcv]
        exact IHp chain1 chain2 visited hc
      · have hcv2 : visited.contains rid = false := by simpa using hcv
        have hget1 := getTransaction_wf hWF1 rid
        have hget2 := getTransaction_wf hWF2 rid
        rcases option_scrub_cases (fetch_scrub_congr hWF1 hWF2 ht rid) with
          ⟨hn1, hn2⟩ | ⟨t1, t2, hs1, hs2, hscr⟩
        · rw [hn1] at hget1
          rw [hn2] at hget2
          rw [dfsAux_cons_none hcv2 hget1, dfsAux_cons_none hcv2 hget2]
          exact IHp chain1 chain2 (rid :: visited) hc
        · rw [hs1] at hget1
          rw [hs2] at hget2
          cases fuel with
          | zero =>
            rw [dfsAux_cons_some_zero hcv2 hget1, dfsAux_cons_some_zero hcv2 hget2]
            exact Or.inl ⟨rfl, rfl⟩
          | succ fuel1 =>
            rw [dfsAux_cons_some_succ hcv2 hget1, dfsAux_cons_some_succ hcv2 hget2]
            have hcc : (chain1 ++ [t1]).map scrub = (chain2 ++ [t2]).map scrub := by
              rw [List.map_append, List.map_append, hc]
              simp [hscr]
            have hneq : db1.neighbors rid = db2.neighbors rid :=
              neighbors_links_congr hl rid
            rw [← hneq]
            rcases IHf fuel1 (Nat.lt_succ_self _) (db1.neighbors rid) (chain1 ++ [t1])
                (chain2 ++ [t2]) (rid :: visited) hcc with
              ⟨hi1, hi2⟩ | ⟨ci1, ci2, vi, hi1, hi2, hicc⟩
            · rw [hi1, hi2]
              exact Or.inl ⟨rfl, rfl⟩
            · rw [hi1, hi2]
              rcases IHp ci1 ci2 vi hicc with ⟨ha1, ha2⟩ | ⟨c1f, c2f, vf, ha1, ha2, hfcc⟩
              · exact Or.inl ⟨ha1, ha2⟩
              · exact Or.inr ⟨c1f, c2f, vf, ha1, ha2, hfcc⟩

/-- C10: the chain computation never reads the cached
`related_transactions` column — two well-formed stores with identical
link tables and row-for-row identical `transactions` tables except in
that column produce, for every start id, chains that agree on every field
except possibly the cached view itself. -/
theorem chain_ignores_related_cache (db1 db2 : Database) (hWF1 : db1.WF) (hWF2 : db2.WF)
    (hl : db1.links = db2.links)
    (ht : db1.transactions.map scrubRow = db2.transactions.map scrubRow) (s : String) :
    ∃ l1 l2, getTransactionChain db1 s = Except.ok l1 ∧
      getTransactionChain db2 s = Except.ok l2 ∧
      l1.map scrub = l2.map scrub := by
  have hcf : chainFuel db1 = chainFuel db2 := by
    unfold chainFuel
    rw [hl]
  have hneq : db1.neighbors s = db2.neighbors s := neighbors_links_congr hl s
  rcases option_scrub_cases (fetch_scrub_congr hWF1 hWF2 ht s) with
    ⟨hn1, hn2⟩ | ⟨t1, t2, hs1, hs2, hscr⟩
  · refine ⟨[], [], ?_, ?_, rfl⟩
    · unfold getTransactionChain getTransactionChainF
      rw [getTransaction_wf hWF1 s, hn1]
    · unfold getTransactionChain getTransactionChainF
      rw [getTransaction_wf hWF2 s, hn2]
  · have hget1 : getTransaction db1 s = Except.ok (some t1) := by
      rw [getTransaction_wf hWF1 s, hs1]
    have hget2 : getTransaction db2 s = Except.ok (some t2) := by
      rw [getTransaction_wf hWF2 s, hs2]
    have hcount1 : unvisitedCount db1 [s] < chainFuel db1 := by
      unfold chainFuel unvisitedCount
      have := List.length_filter_le (fun i => !(([s] : List String).contains i))
        (linkIds db1.links)
      omega
    have hsuff := dfsAux_no_fuel_exhaustion db1 (chainFuel db1) (db1.neighbors s)
      [t1] [s] (fun i hi => mem_neighbors_linkIds hi) hcount1
    rcases dfsAux_scrub_congr db1 db2 hWF1 hWF2 hl ht (chainFuel db1) (db1.neighbors s)
        [t1] [t2] [s] (by simp [hscr]) with ⟨hn1d, hn2d⟩ | ⟨c1, c2, v, hd1, hd2, hcc⟩
    · exact absurd hn1d hsuff
    · refine ⟨listSort chronoLe c1, listSort chronoLe c2, ?_, ?_, ?_⟩
      · unfold getTransactionChain getTransactionChainF
        rw [hget1]
        show (match dfsAux db1 (chainFuel db1) (db1.neighbors s) [t1] [s] with
            | none => Except.error "recursion depth exceeded"
            | some (.error e) => Except.error e
            | some (.ok (chain, _)) => Except.ok (listSort chronoLe chain))
          = Except.ok (listSort chronoLe c1)
        rw [hd1]
      · unfold getTransactionChain getTransactionChainF
        rw [hget2]
        show (match dfsAux db2 (chainFuel db2) (db2.neighbors s) [t2] [s] with
            | none => Except.error "recursion depth exceeded"
            | some (.error e) => Except.error e
            | some (.ok (chain, _)) => Except.ok (listSort chronoLe chain))
          = Except.ok (listSort chronoLe c2)
        rw [← hcf, ← hneq, hd2]
      · exact listSort_map_congr chronoLe chronoLe scrub (fun a b => rfl) c1 c2 hcc

/-- Witness for C10: two stores differing only in A's cached view. -/
theorem chain_ignores_related_cache_witness :
    cacheDb1.WF ∧ cacheDb2.WF ∧ cacheDb1.links = cacheDb2.links ∧
    cacheDb1.transactions.map scrubRow = cacheDb2.transactions.map scrubRow ∧
    ∃ l1 l2, getTransactionChain cacheDb1 "A" = Except.ok l1 ∧
      getTransactionChain cacheDb2 "A" = Except.ok l2 ∧
      l1.map scrub = l2.map scrub :=
  ⟨by decide, by decide, by decide, by decide,
   chain_ignores_related_cache cacheDb1 cacheDb2 (by decide) (by decide) (by decide)
     (by decide) "A"⟩
